import Mathlib

/-!
Verification development for the moshiki log-indexing engine.

The Rust sources are shallowly embedded: byte strings become `List Nat`
(each element one byte), `u32`/`usize` become `Nat` (no arithmetic here
ever nears `2^32`), hash maps become association lists, and fallible code
returns `Option`.  Every definition mirrors the function of the same name
in the repository; module paths are given in the doc comments.
-/

namespace Moshiki

/-! ### Byte lookup tables (src/tokenizer/mod.rs)

The Rust lookup tables are built from `u8::is_ascii_whitespace`,
`u8::is_ascii_punctuation`, `u8::is_ascii_digit`, `u8::is_ascii_hexdigit`.
We embed them as decidable predicates over the byte value. -/

/-- `WHITESPACE_LOOKUP_TABLE`: ASCII whitespace bytes (tab, LF, FF, CR, space). -/
def isWhitespaceByte (b : Nat) : Bool :=
  b = 9 || b = 10 || b = 12 || b = 13 || b = 32

/-- `PUNCTUATION_LOOKUP_TABLE`: ASCII punctuation ranges. -/
def isPunctByte (b : Nat) : Bool :=
  (33 ≤ b && b ≤ 47) || (58 ≤ b && b ≤ 64) || (91 ≤ b && b ≤ 96) || (123 ≤ b && b ≤ 126)

/-- `DIGIT_LOOKUP_TABLE`: ASCII digits. -/
def isDigitByte (b : Nat) : Bool :=
  48 ≤ b && b ≤ 57

/-- `u8::is_ascii_uppercase`. -/
def isUpperByte (b : Nat) : Bool :=
  65 ≤ b && b ≤ 90

/-- `HEX_DIGIT_LOOKUP_TABLE`: ASCII hex digits. -/
def isHexByte (b : Nat) : Bool :=
  isDigitByte b || (65 ≤ b && b ≤ 70) || (97 ≤ b && b ≤ 102)

/-- `WORD_DELIMITER_LOOKUP_TABLE`: whitespace, or punctuation other than
`.` (46), `-` (45), `_` (95). -/
def isWordDelimiterByte (b : Nat) : Bool :=
  isWhitespaceByte b || (isPunctByte b && b ≠ 46 && b ≠ 45 && b ≠ 95)

/-- `MAX_TOKENS` (src/tokenizer/mod.rs line 12). -/
def MAX_TOKENS : Nat := 40

/-! ### Tokens (src/tokenizer/token.rs)

Range tokens carry the `[start, end)` byte range into the input.  The
`Number` token carries its byte range: this is the `number_as_string`
representation of `src/tokenizer/number_as_string.rs`, where
`Number::to_string` returns the original substring. -/

/-- `Token` (src/tokenizer/token.rs). -/
inductive Token where
  | ipv4 (s e : Nat)
  | number (s e : Nat)
  | uuid (s e : Nat)
  | word (s e : Nat)
  | punctuation (s e : Nat)
  | whitespace (n : Nat)
  | catchAll (s e : Nat)
deriving DecidableEq

/-- count of the leading elements satisfying `p` (`iter().take_while(p).count()`). -/
def countWhile (p : Nat → Bool) : List Nat → Nat
  | [] => 0
  | b :: rest => if p b then countWhile p rest + 1 else 0

/-! ### Classifiers (src/tokenizer/mod.rs) -/

/-- The digit-scanning loop inside `is_ipv4`: accumulates `val` and
`digit_cnt`, bailing out (`none`) when `digit_cnt > 3 || val > 255`.
Returns the value, digit count and remaining bytes. -/
def ipv4DigitLoop : List Nat → Nat → Nat → Option (Nat × Nat × List Nat)
  | [], val, cnt => some (val, cnt, [])
  | b :: rest, val, cnt =>
    if isDigitByte b then
      let val' := val * 10 + (b - 48)
      let cnt' := cnt + 1
      if cnt' > 3 || val' > 255 then none
      else ipv4DigitLoop rest val' cnt'
    else some (val, cnt, b :: rest)

/-- One octet of `is_ipv4`: at least one digit, the bail-out conditions of
the loop, and the rejection of leading zeros on multi-digit octets.
Returns the number of digits consumed and the remaining bytes. -/
def ipv4Octet : List Nat → Option (Nat × List Nat)
  | [] => none
  | b :: rest =>
    if isDigitByte b then
      match ipv4DigitLoop (b :: rest) 0 0 with
      | none => none
      | some (_, cnt, rest') =>
        if cnt > 1 && b = 48 then none else some (cnt, rest')
    else none

/-- The `.` separator expected after each of the first three octets. -/
def expectDot : List Nat → Option (List Nat)
  | [] => none
  | b :: rest => if b = 46 then some rest else none

/-- `is_ipv4` (src/tokenizer/mod.rs lines 250-295): four 1-3 digit octets
`≤ 255`, no leading zeros on multi-digit octets, dot separated.  Returns
the number of bytes consumed. -/
def is_ipv4 (bytes : List Nat) : Option Nat :=
  match bytes with
  | [] => none
  | b :: _ =>
    if isDigitByte b then
      match ipv4Octet bytes with
      | none => none
      | some (c1, r1) =>
        match expectDot r1 with
        | none => none
        | some r1' =>
          match ipv4Octet r1' with
          | none => none
          | some (c2, r2) =>
            match expectDot r2 with
            | none => none
            | some r2' =>
              match ipv4Octet r2' with
              | none => none
              | some (c3, r3) =>
                match expectDot r3 with
                | none => none
                | some r3' =>
                  match ipv4Octet r3' with
                  | none => none
                  | some (c4, _) => some (c1 + 1 + c2 + 1 + c3 + 1 + c4)
    else none

/-- The full scan of `is_composite_id`: length of the leading run of
digits / uppercase letters / `-` / `:` / `_`, stopping at whitespace or any
other byte. -/
def compositeLen : List Nat → Nat
  | [] => 0
  | b :: rest =>
    if isWhitespaceByte b then 0
    else if isDigitByte b || isUpperByte b || b = 45 || b = 58 || b = 95 then
      compositeLen rest + 1
    else 0

/-- `is_composite_id` (src/tokenizer/mod.rs lines 212-245): first byte a
digit or uppercase letter, at least 8 bytes, the first 8 bytes holding both
a digit and an uppercase letter; then the full scan. -/
def is_composite_id (bytes : List Nat) : Option Nat :=
  match bytes with
  | [] => none
  | b :: _ =>
    if !(isDigitByte b || isUpperByte b) then none
    else if bytes.length < 8 then none
    else
      let quick := bytes.take 8
      if quick.any isUpperByte && quick.any isDigitByte then
        some (compositeLen bytes)
      else none

/-- `is_number` (src/tokenizer/mod.rs lines 301-312): leading run of ASCII digits. -/
def is_number (bytes : List Nat) : Option Nat :=
  match bytes with
  | [] => none
  | b :: _ =>
    if isDigitByte b then some (countWhile isDigitByte bytes) else none

/-- Index list of the hex-digit positions of a UUID (the `ranges_to_check`
of `is_uuid_v4`: `0..8`, `9..13`, `14..18`, `19..23`, `24..36`). -/
def uuidHexPositions : List Nat :=
  [0, 1, 2, 3, 4, 5, 6, 7,
   9, 10, 11, 12,
   14, 15, 16, 17,
   19, 20, 21, 22,
   24, 25, 26, 27, 28, 29, 30, 31, 32, 33, 34, 35]

/-- `is_uuid_v4` (src/tokenizer/mod.rs lines 317-338): at least 36 bytes,
`-` at positions 8/13/18/23, hex digits elsewhere.  Consumes 36 bytes. -/
def is_uuid_v4 (bytes : List Nat) : Option Nat :=
  if bytes.length < 36 then none
  else if !isHexByte (bytes.getD 0 0) then none
  else if bytes.getD 8 0 ≠ 45 || bytes.getD 13 0 ≠ 45 ||
          bytes.getD 18 0 ≠ 45 || bytes.getD 23 0 ≠ 45 then none
  else if uuidHexPositions.all (fun i => isHexByte (bytes.getD i 0)) then some 36
  else none

/-- `word_len` (src/tokenizer/mod.rs lines 360-365). -/
def word_len (bytes : List Nat) : Nat :=
  countWhile (fun b => !isWordDelimiterByte b) bytes

/-! ### The tokenizer (src/tokenizer/mod.rs, `impl Iterator for Tokenizer`) -/

/-- One call of `Tokenizer::next` (src/tokenizer/mod.rs lines 144-206).
State is `(pos, token_count)`; a produced token comes with the updated
state. -/
def nextTok (input : List Nat) (pos tokenCount : Nat) : Option (Token × Nat × Nat) :=
  if pos ≥ input.length then none
  else if tokenCount ≥ MAX_TOKENS then
    some (Token.catchAll pos input.length, input.length, tokenCount + 1)
  else
    match input.drop pos with
    | [] => none  -- unreachable: `pos < input.length` makes the suffix nonempty
    | b0 :: rest0 =>
      if isWhitespaceByte b0 then
        let len := countWhile isWhitespaceByte (b0 :: rest0)
        some (Token.whitespace len, pos + len, tokenCount + 1)
      else if isPunctByte b0 then
        let len := countWhile isPunctByte (b0 :: rest0)
        some (Token.punctuation pos (pos + len), pos + len, tokenCount + 1)
      else
        match is_ipv4 (b0 :: rest0) with
        | some n => some (Token.ipv4 pos (pos + n), pos + n, tokenCount + 1)
        | none =>
          match is_composite_id (b0 :: rest0) with
          | some n => some (Token.word pos (pos + n), pos + n, tokenCount + 1)
          | none =>
            match is_number (b0 :: rest0) with
            | some n => some (Token.number pos (pos + n), pos + n, tokenCount + 1)
            | none =>
              match is_uuid_v4 (b0 :: rest0) with
              | some n => some (Token.uuid pos (pos + n), pos + n, tokenCount + 1)
              | none =>
                let len := word_len (b0 :: rest0)
                some (Token.word pos (pos + len), pos + len, tokenCount + 1)

/-- Iterating `Tokenizer::next` to exhaustion.  The fuel argument only
bounds the iteration: `nextTok` advances `pos` by at least one byte each
call (proved below), so fuel `input.length + 1` never runs out first. -/
def tokenizeAux (input : List Nat) : Nat → Nat → Nat → List Token
  | 0, _, _ => []
  | fuel + 1, pos, tc =>
    match nextTok input pos tc with
    | none => []
    | some (t, pos', tc') => t :: tokenizeAux input fuel pos' tc'

/-- `tokenize` (src/tokenizer/mod.rs lines 84-86). -/
def tokenize (input : List Nat) : List Token :=
  tokenizeAux input (input.length + 1) 0 0

/-- The byte slice `input[s..e]`. -/
def sliceBytes (input : List Nat) (s e : Nat) : List Nat :=
  (input.drop s).take (e - s)

/-- `Token::to_string` / the mapping inside `reconstruct_from_tokens`
(src/tokenizer/mod.rs lines 88-100), producing bytes.  Range tokens yield
their slice, `Whitespace(n)` yields `n` spaces; `Number` yields its
original substring (the `number_as_string` representation). -/
def tokenToBytes (input : List Nat) : Token → List Nat
  | .ipv4 s e | .uuid s e | .word s e | .catchAll s e | .punctuation s e => sliceBytes input s e
  | .whitespace n => List.replicate n 32
  | .number s e => sliceBytes input s e

/-- `reconstruct_from_tokens` (src/tokenizer/mod.rs lines 88-100), on bytes. -/
def reconstruct_from_tokens (input : List Nat) (tokens : List Token) : List Nat :=
  (tokens.map (tokenToBytes input)).flatten

/-- The token stream starting at `pos` covers contiguous, non-overlapping,
non-empty byte ranges and ends exactly at `inputLen` (a `Whitespace n`
token covers `n` bytes from the current position). -/
def tilesFrom (inputLen : Nat) : List Token → Nat → Bool
  | [], pos => pos == inputLen
  | t :: ts, pos =>
    match t with
    | .whitespace n => decide (0 < n) && tilesFrom inputLen ts (pos + n)
    | .ipv4 s e | .number s e | .uuid s e | .word s e | .punctuation s e | .catchAll s e =>
      (s == pos) && decide (pos < e) && tilesFrom inputLen ts e

/-! ### Basic lemmas about the scanners -/

theorem countWhile_le (p : Nat → Bool) : ∀ l : List Nat, countWhile p l ≤ l.length := by
  intro l
  induction l with
  | nil => simp [countWhile]
  | cons b rest ih =>
    simp only [countWhile, List.length_cons]
    split <;> omega

theorem countWhile_head_pos {p : Nat → Bool} {b : Nat} {rest : List Nat} (h : p b = true) :
    0 < countWhile p (b :: rest) := by
  simp [countWhile, h]

theorem countWhile_take_all (p : Nat → Bool) :
    ∀ l : List Nat, ∀ b ∈ l.take (countWhile p l), p b = true := by
  intro l
  induction l with
  | nil => simp
  | cons a rest ih =>
    by_cases h : p a = true
    · simp only [countWhile, h, if_true, List.take_succ_cons]
      intro b hb
      rcases List.mem_cons.mp hb with rfl | hb
      · exact h
      · exact ih b hb
    · simp only [countWhile, h, if_false, List.take_zero]
      intro b hb
      simp at hb

theorem ipv4DigitLoop_spec :
    ∀ (l : List Nat) (val cnt v c : Nat) (r : List Nat),
      ipv4DigitLoop l val cnt = some (v, c, r) → cnt ≤ c ∧ c + r.length = cnt + l.length := by
  intro l
  induction l with
  | nil =>
    intro val cnt v c r h
    simp only [ipv4DigitLoop, Option.some.injEq, Prod.mk.injEq] at h
    obtain ⟨-, rfl, rfl⟩ := h
    simp
  | cons b rest ih =>
    intro val cnt v c r h
    simp only [ipv4DigitLoop] at h
    split at h
    · split at h
      · exact absurd h (by simp)
      · have := ih _ _ v c r h
        simp only [List.length_cons]
        omega
    · simp only [Option.some.injEq, Prod.mk.injEq] at h
      obtain ⟨-, rfl, rfl⟩ := h
      simp

theorem ipv4DigitLoop_cons_digit {b : Nat} {rest : List Nat} {val cnt v c : Nat} {r : List Nat}
    (hdig : isDigitByte b = true)
    (h : ipv4DigitLoop (b :: rest) val cnt = some (v, c, r)) : cnt + 1 ≤ c := by
  simp only [ipv4DigitLoop, hdig, if_true] at h
  split at h
  · exact absurd h (by simp)
  · exact (ipv4DigitLoop_spec _ _ _ _ _ _ h).1

theorem ipv4Octet_spec {l : List Nat} {c : Nat} {r : List Nat}
    (h : ipv4Octet l = some (c, r)) : 0 < c ∧ c + r.length = l.length := by
  match l with
  | [] => simp [ipv4Octet] at h
  | b :: rest =>
    simp only [ipv4Octet] at h
    split at h
    · rename_i hdig
      cases hloop : ipv4DigitLoop (b :: rest) 0 0 with
      | none => rw [hloop] at h; simp at h
      | some trip =>
        obtain ⟨v', c', r'⟩ := trip
        rw [hloop] at h
        have hspec := ipv4DigitLoop_spec _ _ _ v' c' r' hloop
        have hpos := ipv4DigitLoop_cons_digit hdig hloop
        simp only [] at h
        split at h
        · exact absurd h (by simp)
        · simp only [Option.some.injEq, Prod.mk.injEq] at h
          obtain ⟨rfl, rfl⟩ := h
          simp only [List.length_cons] at hspec ⊢
          omega
    · exact absurd h (by simp)

theorem expectDot_spec {l r : List Nat} (h : expectDot l = some r) :
    r.length + 1 = l.length := by
  match l with
  | [] => simp [expectDot] at h
  | b :: rest =>
    simp only [expectDot] at h
    split at h
    · simp only [Option.some.injEq] at h
      subst h
      simp
    · exact absurd h (by simp)

theorem is_ipv4_spec {bytes : List Nat} {n : Nat} (h : is_ipv4 bytes = some n) :
    0 < n ∧ n ≤ bytes.length := by
  match bytes with
  | [] => simp [is_ipv4] at h
  | b :: rest =>
    simp only [is_ipv4] at h
    split at h
    · split at h
      · simp at h
      · rename_i c1 r1 h1
        split at h
        · simp at h
        · rename_i r1' hd1
          split at h
          · simp at h
          · rename_i c2 r2 h2
            split at h
            · simp at h
            · rename_i r2' hd2
              split at h
              · simp at h
              · rename_i c3 r3 h3
                split at h
                · simp at h
                · rename_i r3' hd3
                  split at h
                  · simp at h
                  · rename_i c4 r4 h4
                    simp at h
                    have s1 := ipv4Octet_spec h1
                    have s2 := ipv4Octet_spec h2
                    have s3 := ipv4Octet_spec h3
                    have s4 := ipv4Octet_spec h4
                    have d1 := expectDot_spec hd1
                    have d2 := expectDot_spec hd2
                    have d3 := expectDot_spec hd3
                    omega
    · simp at h

theorem compositeLen_le : ∀ l : List Nat, compositeLen l ≤ l.length := by
  intro l
  induction l with
  | nil => simp [compositeLen]
  | cons b rest ih =>
    simp only [compositeLen, List.length_cons]
    split
    · omega
    · split <;> omega

theorem is_composite_id_spec {bytes : List Nat} {n : Nat} (h : is_composite_id bytes = some n) :
    0 < n ∧ n ≤ bytes.length := by
  match bytes with
  | [] => simp [is_composite_id] at h
  | b :: rest =>
    simp only [is_composite_id] at h
    split at h
    · simp at h
    · rename_i hfirst
      split at h
      · simp at h
      · split at h
        · simp only [Option.some.injEq] at h
          subst h
          refine ⟨?_, compositeLen_le _⟩
          have hb : isDigitByte b = true ∨ isUpperByte b = true := by
            revert hfirst
            cases hdig : isDigitByte b <;> cases hup : isUpperByte b <;> simp
          have hws : isWhitespaceByte b = false := by
            rcases hb with h' | h'
            · simp only [isDigitByte, Bool.and_eq_true, decide_eq_true_eq] at h'
              simp only [isWhitespaceByte]
              simp only [Bool.or_eq_false_iff, decide_eq_false_iff_not]
              omega
            · simp only [isUpperByte, Bool.and_eq_true, decide_eq_true_eq] at h'
              simp only [isWhitespaceByte]
              simp only [Bool.or_eq_false_iff, decide_eq_false_iff_not]
              omega
          simp only [compositeLen, hws, Bool.false_eq_true, if_false]
          rcases hb with h' | h' <;> simp [h']
        · exact absurd h (by simp)

theorem is_number_spec {bytes : List Nat} {n : Nat} (h : is_number bytes = some n) :
    0 < n ∧ n ≤ bytes.length := by
  match bytes with
  | [] => simp [is_number] at h
  | b :: rest =>
    simp only [is_number] at h
    split at h
    · rename_i hdig
      simp at h
      subst h
      exact ⟨countWhile_head_pos hdig, countWhile_le _ _⟩
    · simp at h

theorem is_uuid_v4_spec {bytes : List Nat} {n : Nat} (h : is_uuid_v4 bytes = some n) :
    n = 36 ∧ 36 ≤ bytes.length := by
  simp only [is_uuid_v4] at h
  split at h
  · simp at h
  · rename_i hlen
    split at h
    · simp at h
    · split at h
      · simp at h
      · split at h
        · simp at h
          omega
        · simp at h

theorem word_len_le (bytes : List Nat) : word_len bytes ≤ bytes.length :=
  countWhile_le _ _

theorem word_len_pos {b : Nat} {rest : List Nat} (h : isWordDelimiterByte b = false) :
    0 < word_len (b :: rest) := by
  apply countWhile_head_pos
  simp [h]

/-! ### Progress and tiling of the tokenizer -/

/-- Every successful `Tokenizer::next` call advances the position by at
least one byte, stays within the input, and emits a token whose range is
exactly the bytes stepped over. -/
theorem nextTok_spec {input : List Nat} {pos tc : Nat} {t : Token} {pos' tc' : Nat}
    (h : nextTok input pos tc = some (t, pos', tc')) :
    pos < pos' ∧ pos' ≤ input.length ∧ tc' = tc + 1 ∧
      (match t with
       | .whitespace n => pos' = pos + n ∧ 0 < n
       | .ipv4 s e | .number s e | .uuid s e | .word s e | .punctuation s e | .catchAll s e =>
         s = pos ∧ e = pos') := by
  simp only [nextTok] at h
  split at h
  · exact absurd h (by simp)
  · rename_i hpos
    have hposlt : pos < input.length := by omega
    split at h
    · -- CatchAll
      simp only [Option.some.injEq, Prod.mk.injEq] at h
      obtain ⟨rfl, rfl, rfl⟩ := h
      exact ⟨hposlt, le_refl _, rfl, rfl, rfl⟩
    · split at h
      · -- unreachable [] arm
        rename_i hbr
        have : (input.drop pos).length = input.length - pos := by simp
        rw [hbr] at this
        simp at this
        omega
      · rename_i b rest hbr
        have hdroplen : (b :: rest).length = input.length - pos := by
          rw [← hbr]; simp
        split at h
        · -- Whitespace
          rename_i hws
          simp only [Option.some.injEq, Prod.mk.injEq] at h
          obtain ⟨rfl, rfl, rfl⟩ := h
          have hposcw : 0 < countWhile isWhitespaceByte (b :: rest) :=
            countWhile_head_pos hws
          have hle := countWhile_le isWhitespaceByte (b :: rest)
          simp only [List.length_cons] at hdroplen hle
          refine ⟨by omega, by omega, rfl, rfl, hposcw⟩
        · rename_i hwsn
          split at h
          · -- Punctuation
            rename_i hpunct
            simp only [Option.some.injEq, Prod.mk.injEq] at h
            obtain ⟨rfl, rfl, rfl⟩ := h
            have hposcw : 0 < countWhile isPunctByte (b :: rest) :=
              countWhile_head_pos hpunct
            have hle := countWhile_le isPunctByte (b :: rest)
            simp only [List.length_cons] at hdroplen hle
            refine ⟨by omega, by omega, rfl, rfl, rfl⟩
          · rename_i hpunctn
            split at h
            · rename_i n hip
              simp only [Option.some.injEq, Prod.mk.injEq] at h
              obtain ⟨rfl, rfl, rfl⟩ := h
              have := is_ipv4_spec hip
              simp only [List.length_cons] at this hdroplen
              refine ⟨by omega, by omega, rfl, rfl, rfl⟩
            · split at h
              · rename_i n hcomp
                simp only [Option.some.injEq, Prod.mk.injEq] at h
                obtain ⟨rfl, rfl, rfl⟩ := h
                have := is_composite_id_spec hcomp
                simp only [List.length_cons] at this hdroplen
                refine ⟨by omega, by omega, rfl, rfl, rfl⟩
              · split at h
                · rename_i n hnum
                  simp only [Option.some.injEq, Prod.mk.injEq] at h
                  obtain ⟨rfl, rfl, rfl⟩ := h
                  have := is_number_spec hnum
                  simp only [List.length_cons] at this hdroplen
                  refine ⟨by omega, by omega, rfl, rfl, rfl⟩
                · split at h
                  · rename_i n huuid
                    simp only [Option.some.injEq, Prod.mk.injEq] at h
                    obtain ⟨rfl, rfl, rfl⟩ := h
                    have := is_uuid_v4_spec huuid
                    simp only [List.length_cons] at this hdroplen
                    refine ⟨by omega, by omega, rfl, rfl, rfl⟩
                  · -- word fallback
                    simp only [Option.some.injEq, Prod.mk.injEq] at h
                    obtain ⟨rfl, rfl, rfl⟩ := h
                    have hdelim : isWordDelimiterByte b = false := by
                      have h1 : isWhitespaceByte b = false := by simpa using hwsn
                      have h2 : isPunctByte b = false := by simpa using hpunctn
                      simp [isWordDelimiterByte, h1, h2]
                    have hposwl : 0 < word_len (b :: rest) := word_len_pos hdelim
                    have hle := word_len_le (b :: rest)
                    simp only [List.length_cons] at hdroplen hle
                    refine ⟨by omega, by omega, rfl, rfl, rfl⟩

/-- `Tokenizer::next` returns `None` only at the end of the input. -/
theorem nextTok_none {input : List Nat} {pos tc : Nat}
    (h : nextTok input pos tc = none) : input.length ≤ pos := by
  by_contra hlt
  simp only [nextTok] at h
  rw [if_neg (by omega)] at h
  split at h
  · exact absurd h (by simp)
  · split at h
    · rename_i hbr
      have hd : (input.drop pos).length = input.length - pos := by simp
      rw [hbr] at hd
      simp at hd
      omega
    · split at h
      · exact absurd h (by simp)
      · split at h
        · exact absurd h (by simp)
        · split at h
          · exact absurd h (by simp)
          · split at h
            · exact absurd h (by simp)
            · split at h
              · exact absurd h (by simp)
              · split at h
                · exact absurd h (by simp)
                · exact absurd h (by simp)

theorem tokenizeAux_tiles (input : List Nat) :
    ∀ fuel pos tc, input.length ≤ pos + fuel → pos ≤ input.length →
      tilesFrom input.length (tokenizeAux input fuel pos tc) pos = true ∧
        (tokenizeAux input fuel pos tc).length + pos ≤ input.length := by
  intro fuel
  induction fuel with
  | zero =>
    intro pos tc h1 h2
    have : pos = input.length := by omega
    subst this
    simp [tokenizeAux, tilesFrom]
  | succ fuel ih =>
    intro pos tc h1 h2
    simp only [tokenizeAux]
    cases hnext : nextTok input pos tc with
    | none =>
      have := nextTok_none hnext
      have : pos = input.length := by omega
      subst this
      simp [tilesFrom]
    | some v =>
      obtain ⟨t, pos', tc'⟩ := v
      obtain ⟨hlt, hle, -, hshape⟩ := nextTok_spec hnext
      have hrec := ih pos' tc' (by omega) hle
      constructor
      · cases t with
        | whitespace n =>
          obtain ⟨hpos', hn⟩ := hshape
          simp only [tilesFrom]
          rw [← hpos']
          simp [hn, hrec.1]
        | ipv4 s e | number s e | uuid s e | word s e | punctuation s e | catchAll s e =>
          obtain ⟨rfl, rfl⟩ := hshape
          simp [tilesFrom, hlt, hrec.1]
      · have := hrec.2
        simp only [List.length_cons]
        omega

/-! ### Round-trip reconstruction lemmas -/

theorem sliceBytes_append (input : List Nat) {a b c : Nat} (h1 : a ≤ b) (h2 : b ≤ c) :
    sliceBytes input a b ++ sliceBytes input b c = sliceBytes input a c := by
  simp only [sliceBytes]
  have hsum : c - a = (b - a) + (c - b) := by omega
  have hba : a + (b - a) = b := by omega
  rw [hsum, List.take_add, List.drop_drop, hba]

/-- When every whitespace byte of the input is a space, each emitted token
reconstructs exactly the byte range it covers. -/
theorem nextTok_bytes {input : List Nat} {pos tc : Nat} {t : Token} {pos' tc' : Nat}
    (hws32 : ∀ b ∈ input, isWhitespaceByte b = true → b = 32)
    (h : nextTok input pos tc = some (t, pos', tc')) :
    tokenToBytes input t = sliceBytes input pos pos' := by
  have hspec := nextTok_spec h
  obtain ⟨hlt, hle, -, hshape⟩ := hspec
  cases t with
  | ipv4 s e | number s e | uuid s e | word s e | punctuation s e | catchAll s e =>
    obtain ⟨rfl, rfl⟩ := hshape
    rfl
  | whitespace n =>
    obtain ⟨hpos', hn⟩ := hshape
    -- the whitespace branch is the only one emitting this token
    have hcw : n = countWhile isWhitespaceByte (input.drop pos) := by
      simp only [nextTok] at h
      split at h
      · exact absurd h (by simp)
      · split at h
        · simp at h
        · split at h
          · exact absurd h (by simp)
          · rename_i b rest hbr
            rw [hbr]
            split at h
            · simp only [Option.some.injEq, Prod.mk.injEq, Token.whitespace.injEq] at h
              exact h.1.symm
            · split at h
              · simp at h
              · split at h
                · simp at h
                · split at h
                  · simp at h
                  · split at h
                    · simp at h
                    · split at h
                      · simp at h
                      · simp at h
    subst hpos'
    simp only [tokenToBytes, sliceBytes]
    have hlen : n ≤ (input.drop pos).length := by
      rw [hcw]; exact countWhile_le _ _
    have : pos + n - pos = n := by omega
    rw [this]
    symm
    rw [List.eq_replicate_iff]
    refine ⟨by simp [List.length_take]; omega, ?_⟩
    intro b hb
    rw [hcw] at hb
    have hball : isWhitespaceByte b = true :=
      countWhile_take_all isWhitespaceByte (input.drop pos) b hb
    exact hws32 b (List.drop_subset _ _ (List.take_subset _ _ hb)) hball

theorem tokenizeAux_reconstruct (input : List Nat)
    (hws32 : ∀ b ∈ input, isWhitespaceByte b = true → b = 32) :
    ∀ fuel pos tc, input.length ≤ pos + fuel → pos ≤ input.length →
      reconstruct_from_tokens input (tokenizeAux input fuel pos tc) =
        sliceBytes input pos input.length := by
  intro fuel
  induction fuel with
  | zero =>
    intro pos tc h1 h2
    have : pos = input.length := by omega
    subst this
    simp [tokenizeAux, reconstruct_from_tokens, sliceBytes]
  | succ fuel ih =>
    intro pos tc h1 h2
    simp only [tokenizeAux]
    cases hnext : nextTok input pos tc with
    | none =>
      have := nextTok_none hnext
      have : pos = input.length := by omega
      subst this
      simp [reconstruct_from_tokens, sliceBytes]
    | some v =>
      obtain ⟨t, pos', tc'⟩ := v
      obtain ⟨hlt, hle, -, -⟩ := nextTok_spec hnext
      have hbytes := nextTok_bytes hws32 hnext
      have hrec := ih pos' tc' (by omega) hle
      simp only [reconstruct_from_tokens, List.map_cons, List.flatten_cons]
      rw [hbytes]
      simp only [reconstruct_from_tokens] at hrec
      rw [hrec]
      exact sliceBytes_append input (le_of_lt hlt) hle

/-! ### Claim C1: the MAX_TOKENS CatchAll cut-off -/

/-- The line of `test_max_tokens`: 55 copies of `"a "` followed by 5 copies
of `"b "` (120 bytes). -/
def c1_line : List Nat :=
  (List.replicate 55 [97, 32] ++ List.replicate 5 [98, 32]).flatten

/-- C1: with `MAX_TOKENS = 40` the tokenizer emits 41 tokens on the
55-a/5-b line, the last being a CatchAll spanning bytes 40..120 — not 101
tokens with the CatchAll at the 101st token position as the claim (and the
repository's own `test_max_tokens`) state. -/
theorem c1_catchall_is_41st_token_not_101st :
    (tokenize c1_line).length = 41 ∧
      (tokenize c1_line).getLast? = some (Token.catchAll 40 120) ∧
      (tokenize c1_line).length ≠ 101 := by decide

/-! ### Claim C8: totality, progress and tiling -/

/-- C8: tokenization terminates after at most `input.length` tokens, and
the emitted tokens cover contiguous, non-overlapping, non-empty byte
ranges that exactly tile `[0, input.length)` in order (a `Whitespace n`
token counting as `n` bytes). -/
theorem c8_tokenizer_total_and_tiles (input : List Nat) :
    tilesFrom input.length (tokenize input) 0 = true ∧
      (tokenize input).length ≤ input.length := by
  have h := tokenizeAux_tiles input (input.length + 1) 0 0 (by omega) (by omega)
  refine ⟨h.1, ?_⟩
  have h2 := h.2
  simp only [tokenize]
  omega

/-! ### Claim C2: tokenizer round-trip -/

/-- C2 counterexample: an input consisting of a single tab byte does not
round-trip — the tokenizer collapses whitespace to a count and
reconstruction emits spaces. -/
theorem c2_tab_breaks_roundtrip :
    reconstruct_from_tokens [9] (tokenize [9]) ≠ [9] := by decide

/-- C2 (amended): for every input line all of whose whitespace bytes are
the space character (and numbers stored as the original substring),
concatenating the string form of every token reproduces the input. -/
theorem c2_roundtrip_space_whitespace (input : List Nat)
    (hws32 : ∀ b ∈ input, isWhitespaceByte b = true → b = 32) :
    reconstruct_from_tokens input (tokenize input) = input := by
  have h := tokenizeAux_reconstruct input hws32 (input.length + 1) 0 0 (by omega) (by omega)
  simpa [sliceBytes] using h

theorem c2_roundtrip_space_whitespace_witness :
    reconstruct_from_tokens [97, 32, 98] (tokenize [97, 32, 98]) = [97, 32, 98] :=
  c2_roundtrip_space_whitespace [97, 32, 98] (by decide)

/-! ### Claim C3: classification precedence -/

/-- Modelled from the claim's words, for comparison with `nextTok`: the
claimed precedence IPv4 → Number → UUID with word-scanner fallback, i.e.
without the composite-ID heuristic the source interposes. -/
def nextTokSpecOrder (input : List Nat) (pos tokenCount : Nat) : Option (Token × Nat × Nat) :=
  if pos ≥ input.length then none
  else if tokenCount ≥ MAX_TOKENS then
    some (Token.catchAll pos input.length, input.length, tokenCount + 1)
  else
    match input.drop pos with
    | [] => none
    | b0 :: rest0 =>
      if isWhitespaceByte b0 then
        let len := countWhile isWhitespaceByte (b0 :: rest0)
        some (Token.whitespace len, pos + len, tokenCount + 1)
      else if isPunctByte b0 then
        let len := countWhile isPunctByte (b0 :: rest0)
        some (Token.punctuation pos (pos + len), pos + len, tokenCount + 1)
      else
        match is_ipv4 (b0 :: rest0) with
        | some n => some (Token.ipv4 pos (pos + n), pos + n, tokenCount + 1)
        | none =>
          match is_number (b0 :: rest0) with
          | some n => some (Token.number pos (pos + n), pos + n, tokenCount + 1)
          | none =>
            match is_uuid_v4 (b0 :: rest0) with
            | some n => some (Token.uuid pos (pos + n), pos + n, tokenCount + 1)
            | none =>
              let len := word_len (b0 :: rest0)
              some (Token.word pos (pos + len), pos + len, tokenCount + 1)

/-- Iterating `nextTokSpecOrder` like `tokenizeAux`. -/
def tokenizeSpecOrderAux (input : List Nat) : Nat → Nat → Nat → List Token
  | 0, _, _ => []
  | fuel + 1, pos, tc =>
    match nextTokSpecOrder input pos tc with
    | none => []
    | some (t, pos', tc') => t :: tokenizeSpecOrderAux input fuel pos' tc'

/-- The tokenizer following the claim's stated precedence. -/
def tokenizeSpecOrder (input : List Nat) : List Token :=
  tokenizeSpecOrderAux input (input.length + 1) 0 0

/-- C3 counterexample: on the bytes of `"123A4567"` the source tokenizer
emits a single Word (the composite-ID heuristic fires before Number), while
the claimed precedence IPv4 → Number → UUID would emit `Number "123"`
followed by `Word "A4567"`. -/
theorem c3_spec_order_differs :
    tokenize [49, 50, 51, 65, 52, 53, 54, 55] = [Token.word 0 8] ∧
      tokenizeSpecOrder [49, 50, 51, 65, 52, 53, 54, 55] =
        [Token.number 0 3, Token.word 3 8] ∧
      tokenize [49, 50, 51, 65, 52, 53, 54, 55] ≠
        tokenizeSpecOrder [49, 50, 51, 65, 52, 53, 54, 55] := by decide

/-- C3 (amended): at the start of a non-whitespace, non-punctuation run
the tokenizer tries IPv4 first, then the composite-ID heuristic (emitting
a Word), then Number, then UUID, in that order, the first matching
classifier consuming its bytes; if none matches, the word-scanner
consumes bytes up to the next word-delimiter and emits a Word. -/
theorem c3_classification_precedence (input : List Nat) (pos tc b : Nat) (rest : List Nat)
    (hbr : input.drop pos = b :: rest)
    (hlen : pos < input.length) (htc : tc < MAX_TOKENS)
    (hws : isWhitespaceByte b = false) (hpunct : isPunctByte b = false) :
    (∀ n, is_ipv4 (b :: rest) = some n →
       nextTok input pos tc = some (Token.ipv4 pos (pos + n), pos + n, tc + 1)) ∧
    (is_ipv4 (b :: rest) = none → ∀ n, is_composite_id (b :: rest) = some n →
       nextTok input pos tc = some (Token.word pos (pos + n), pos + n, tc + 1)) ∧
    (is_ipv4 (b :: rest) = none → is_composite_id (b :: rest) = none →
       ∀ n, is_number (b :: rest) = some n →
       nextTok input pos tc = some (Token.number pos (pos + n), pos + n, tc + 1)) ∧
    (is_ipv4 (b :: rest) = none → is_composite_id (b :: rest) = none →
       is_number (b :: rest) = none → ∀ n, is_uuid_v4 (b :: rest) = some n →
       nextTok input pos tc = some (Token.uuid pos (pos + n), pos + n, tc + 1)) ∧
    (is_ipv4 (b :: rest) = none → is_composite_id (b :: rest) = none →
       is_number (b :: rest) = none → is_uuid_v4 (b :: rest) = none →
       nextTok input pos tc = some (Token.word pos (pos + word_len (b :: rest)),
         pos + word_len (b :: rest), tc + 1)) := by
  have hstep : nextTok input pos tc =
      (match is_ipv4 (b :: rest) with
       | some n => some (Token.ipv4 pos (pos + n), pos + n, tc + 1)
       | none =>
         match is_composite_id (b :: rest) with
         | some n => some (Token.word pos (pos + n), pos + n, tc + 1)
         | none =>
           match is_number (b :: rest) with
           | some n => some (Token.number pos (pos + n), pos + n, tc + 1)
           | none =>
             match is_uuid_v4 (b :: rest) with
             | some n => some (Token.uuid pos (pos + n), pos + n, tc + 1)
             | none => some (Token.word pos (pos + word_len (b :: rest)),
                 pos + word_len (b :: rest), tc + 1)) := by
    simp only [nextTok]
    rw [if_neg (show ¬ pos ≥ input.length by omega)]
    rw [if_neg (show ¬ tc ≥ MAX_TOKENS by omega)]
    rw [hbr]
    simp [hws, hpunct]
  refine ⟨?_, ?_, ?_, ?_, ?_⟩
  · intro n hn
    rw [hstep, hn]
  · intro h1 n hn
    rw [hstep, h1, hn]
  · intro h1 h2 n hn
    rw [hstep, h1, h2, hn]
  · intro h1 h2 h3 n hn
    rw [hstep, h1, h2, h3, hn]
  · intro h1 h2 h3 h4
    rw [hstep, h1, h2, h3, h4]

theorem c3_classification_precedence_witness :
    nextTok [49, 46, 50, 46, 51, 46, 52] 0 0 = some (Token.ipv4 0 (0 + 7), 0 + 7, 0 + 1) :=
  (c3_classification_precedence [49, 46, 50, 46, 51, 46, 52] 0 0 49 [46, 50, 46, 51, 46, 52]
      (by decide) (by decide) (by decide) (by decide) (by decide)).1 7 (by decide)

/-! ### Data model of the preliminary index
(src/src/indexing/preliminary_index.rs, src/src/indexing/termmap.rs) -/

/-- `TokenType` (src/tokenizer/token.rs). -/
inductive TokType where
  | word
  | number
  | ipv4
  | uuid
  | punctuation
  | whitespace
  | catchAll
deriving DecidableEq

/-- `Token::token_type`. -/
def Token.tokenType : Token → TokType
  | .word _ _ => .word
  | .number _ _ => .number
  | .ipv4 _ _ => .ipv4
  | .uuid _ _ => .uuid
  | .punctuation _ _ => .punctuation
  | .whitespace _ => .whitespace
  | .catchAll _ _ => .catchAll

/-- `Token::as_bytes` (src/tokenizer/token.rs): the byte slice of a range
token (numbers as their original substring, per `number_as_string`);
whitespace has no bytes. -/
def Token.as_bytes (line : List Nat) : Token → Option (List Nat)
  | .word s e | .ipv4 s e | .uuid s e | .punctuation s e | .catchAll s e =>
      some (sliceBytes line s e)
  | .number s e => some (sliceBytes line s e)
  | .whitespace _ => none

/-- `IndexingTermmap` (src/src/indexing/termmap.rs): the regular hashed
store (modelled as an association list in insertion order), the id-like
append-only log, and the shared `next_term_id` counter.  The catch-all
store is unused by the embedded operations and omitted. -/
structure IndexingTermmap where
  regular : List (List Nat × Nat)
  uniqueLog : List (List Nat × Nat)
  nextTermId : Nat
deriving DecidableEq

def IndexingTermmap.empty : IndexingTermmap := ⟨[], [], 0⟩

/-- `IndexingTermmap::mutate_or_create` (non-catch-all paths): the id-like
path always allocates a fresh id; the regular path interns. -/
def IndexingTermmap.mutate_or_create (tm : IndexingTermmap) (key : List Nat)
    (isIdLike : Bool) : Nat × IndexingTermmap :=
  if isIdLike then
    (tm.nextTermId,
      { tm with uniqueLog := tm.uniqueLog ++ [(key, tm.nextTermId)],
                nextTermId := tm.nextTermId + 1 })
  else
    match tm.regular.find? (fun e => decide (e.1 = key)) with
    | some e => (e.2, tm)
    | none =>
      (tm.nextTermId,
        { tm with regular := tm.regular ++ [(key, tm.nextTermId)],
                  nextTermId := tm.nextTermId + 1 })

/-- `find_term_for_term_id` (linear scan of the regular store). -/
def IndexingTermmap.find_term_for_term_id (tm : IndexingTermmap) (id : Nat) : List Nat :=
  match tm.regular.find? (fun e => decide (e.2 = id)) with
  | some e => e.1
  | none => []

/-- `get_term_id` (preliminary_index.rs lines 200-216): range tokens intern
their slice; a whitespace token's "term id" is its count.  (The source's
match omits the CatchAll arm; it is grouped with the other range tokens
here.) -/
def get_term_id (tok : Token) (line : List Nat) (tm : IndexingTermmap)
    (isIdLike : Bool) : Nat × IndexingTermmap :=
  match tok with
  | .ipv4 s e | .uuid s e | .word s e | .punctuation s e | .catchAll s e =>
      tm.mutate_or_create (sliceBytes line s e) isIdLike
  | .whitespace n => (n, tm)
  | .number s e => tm.mutate_or_create (sliceBytes line s e) isIdLike

/-- `check_is_id_like` (preliminary_index.rs lines 424-438).  The `f32`
unique-ratio comparison against `0.98` is modelled exactly on naturals
(`50 * unique ≥ 49 * total`). -/
def check_is_id_like (column : List Nat) : Bool :=
  50 * column.dedup.length ≥ 49 * column.length

/-- `IndexingTemplateToken` (preliminary_index.rs lines 26-36); a constant
carries its composite token `(type, term_id)` and its text. -/
inductive IndexingTemplateToken where
  | constantTok (tokenType : TokType) (termId : Nat) (text : List Nat)
  | variableTok (isIdLike : Bool) (columnIndex : Nat) (tokenType : TokType)
  | whitespaceTok (n : Nat)
deriving DecidableEq

/-- `TemplateTokenWithMeta` (preliminary_index.rs lines 19-24). -/
structure TemplateTokenWithMeta where
  token : IndexingTemplateToken
  tokenIndex : Nat
deriving DecidableEq

/-- `PrelimDocGroup` (preliminary_index.rs lines 218-225); the
`template_id`/`num_docs` of the inner template are set only at id
assignment and omitted here. -/
structure PrelimDocGroup where
  tokens : List TemplateTokenWithMeta
  columns : List (List Nat)
  numDocs : Nat
deriving DecidableEq

/-- One step of the loop in `PrelimDocGroup::new` (lines 315-356). -/
def newTokenStep (line : List Nat)
    (acc : List TemplateTokenWithMeta × Nat × IndexingTermmap) (tok : Token) :
    List TemplateTokenWithMeta × Nat × IndexingTermmap :=
  let (done, idx, tm) := acc
  match tok with
  | Token.whitespace n =>
      (done ++ [⟨IndexingTemplateToken.whitespaceTok n, idx⟩], idx + 1, tm)
  | _ =>
      let r := get_term_id tok line tm false
      let text := (tok.as_bytes line).getD []
      (done ++ [⟨IndexingTemplateToken.constantTok tok.tokenType r.1 text, idx⟩],
        idx + 1, r.2)

/-- `PrelimDocGroup::new`: every non-whitespace token becomes a Constant,
whitespace a Whitespace slot; no columns; `num_docs = 1`. -/
def PrelimDocGroup.new (lineToks : List Token) (line : List Nat)
    (tm : IndexingTermmap) : PrelimDocGroup × IndexingTermmap :=
  let r := lineToks.foldl (newTokenStep line) ([], 0, tm)
  ({ tokens := r.1, columns := [], numDocs := 1 }, r.2.2)

/-- One template slot of `PrelimDocGroup::push` (lines 358-404): a
Constant either matches the line's token bytes or is promoted to a
Variable backed by a fresh column; a Variable appends the interned id (and
re-checks `is_id_like` at `num_docs = 10000`); Whitespace is a no-op. -/
def pushToken (lineToks : List Token) (line : List Nat) (numDocs : Nat)
    (acc : List TemplateTokenWithMeta × List (List Nat) × IndexingTermmap)
    (tt : TemplateTokenWithMeta) :
    List TemplateTokenWithMeta × List (List Nat) × IndexingTermmap :=
  let (done, cols, tm) := acc
  match tt.token with
  | IndexingTemplateToken.constantTok _ cid text =>
      let tok := lineToks.getD tt.tokenIndex (Token.whitespace 0)
      let tokBytes := (tok.as_bytes line).getD []
      if text = tokBytes then (done ++ [tt], cols, tm)
      else
        let r := get_term_id tok line tm false
        let columnIndex := cols.length
        let newCol := List.replicate numDocs cid ++ [r.1]
        (done ++ [⟨IndexingTemplateToken.variableTok false columnIndex tok.tokenType,
            tt.tokenIndex⟩],
          cols ++ [newCol], r.2)
  | IndexingTemplateToken.variableTok isIdLike colIdx ty =>
      let tok := lineToks.getD tt.tokenIndex (Token.whitespace 0)
      let r := get_term_id tok line tm isIdLike
      let cols' := cols.set colIdx (cols.getD colIdx [] ++ [r.1])
      let isIdLike' :=
        if numDocs = 10000 then check_is_id_like (cols'.getD colIdx []) else isIdLike
      (done ++ [⟨IndexingTemplateToken.variableTok isIdLike' colIdx ty, tt.tokenIndex⟩],
        cols', r.2)
  | IndexingTemplateToken.whitespaceTok _ => (done ++ [tt], cols, tm)

/-- `PrelimDocGroup::push`. -/
def PrelimDocGroup.push (g : PrelimDocGroup) (lineToks : List Token) (line : List Nat)
    (tm : IndexingTermmap) : PrelimDocGroup × IndexingTermmap :=
  let r := g.tokens.foldl (pushToken lineToks line g.numDocs) ([], g.columns, tm)
  ({ tokens := r.1, columns := r.2.1, numDocs := g.numDocs + 1 }, r.2.2)

/-- `PrelimDocGroup::convert_to_variable` (lines 286-313).  An
out-of-range `token_idx` panics in the source and is modelled as the
identity. -/
def PrelimDocGroup.convert_to_variable (g : PrelimDocGroup) (tokenIdx : Nat)
    (tm : IndexingTermmap) : PrelimDocGroup × IndexingTermmap :=
  match g.tokens.get? tokenIdx with
  | none => (g, tm)
  | some tt =>
    match tt.token with
    | IndexingTemplateToken.constantTok ty cid _ =>
        let columnIndex := g.columns.length
        let newColumn := List.replicate g.numDocs cid
        ({ g with
            columns := g.columns ++ [newColumn],
            tokens := g.tokens.set tokenIdx
              ⟨IndexingTemplateToken.variableTok false columnIndex ty, tt.tokenIndex⟩ }, tm)
    | IndexingTemplateToken.whitespaceTok n =>
        let r := tm.mutate_or_create (List.replicate n 32) false
        let columnIndex := g.columns.length
        let newColumn := List.replicate g.numDocs r.1
        ({ g with
            columns := g.columns ++ [newColumn],
            tokens := g.tokens.set tokenIdx
              ⟨IndexingTemplateToken.variableTok false columnIndex TokType.whitespace,
                tt.tokenIndex⟩ }, r.2)
    | IndexingTemplateToken.variableTok _ _ _ => (g, tm)

/-! ### The column-length invariant (claim C4) -/

/-- The column indices referenced by the Variable slots, in template order. -/
def varIndices (toks : List TemplateTokenWithMeta) : List Nat :=
  toks.filterMap fun tt =>
    match tt.token with
    | IndexingTemplateToken.variableTok _ ci _ => some ci
    | _ => none

/-- Well-formedness of a group: the Variable slots reference each column
exactly once, and every column holds `num_docs` entries. -/
def PrelimDocGroup.wf (g : PrelimDocGroup) : Prop :=
  (varIndices g.tokens).Nodup ∧
  (∀ i ∈ varIndices g.tokens, i < g.columns.length) ∧
  (∀ i < g.columns.length, i ∈ varIndices g.tokens) ∧
  (∀ c ∈ g.columns, c.length = g.numDocs)

instance (g : PrelimDocGroup) : Decidable g.wf := by
  unfold PrelimDocGroup.wf
  infer_instance

theorem varIndices_append (a b : List TemplateTokenWithMeta) :
    varIndices (a ++ b) = varIndices a ++ varIndices b := by
  simp [varIndices, List.filterMap_append]

theorem varIndices_cons_constant (ty : TokType) (cid : Nat) (text : List Nat) (ti : Nat)
    (l : List TemplateTokenWithMeta) :
    varIndices (⟨IndexingTemplateToken.constantTok ty cid text, ti⟩ :: l) = varIndices l := by
  simp [varIndices, List.filterMap_cons]

theorem varIndices_cons_ws (n ti : Nat) (l : List TemplateTokenWithMeta) :
    varIndices (⟨IndexingTemplateToken.whitespaceTok n, ti⟩ :: l) = varIndices l := by
  simp [varIndices, List.filterMap_cons]

theorem varIndices_cons_var (b : Bool) (ci : Nat) (ty : TokType) (ti : Nat)
    (l : List TemplateTokenWithMeta) :
    varIndices (⟨IndexingTemplateToken.variableTok b ci ty, ti⟩ :: l) = ci :: varIndices l := by
  simp [varIndices, List.filterMap_cons]

theorem getD_set_self_list {α : Type} {l : List α} {j : Nat} (v d : α) (h : j < l.length) :
    (l.set j v).getD j d = v := by
  rw [List.getD_eq_getElem _ _ (by simpa using h)]
  exact List.getElem_set_self _

theorem getD_set_ne_list {α : Type} {l : List α} {i j : Nat} (v d : α) (hne : j ≠ i) :
    (l.set j v).getD i d = l.getD i d := by
  by_cases h : i < l.length
  · rw [List.getD_eq_getElem _ _ (by simpa using h), List.getD_eq_getElem _ _ h]
    exact List.getElem_set_ne hne _
  · rw [List.getD_eq_default _ _ (by simpa using Nat.le_of_not_lt h),
        List.getD_eq_default _ _ (Nat.le_of_not_lt h)]

/-- Variable indices of singleton slot lists. -/
theorem varIndices_singleton_var (b : Bool) (ci : Nat) (ty : TokType) (ti : Nat) :
    varIndices [⟨IndexingTemplateToken.variableTok b ci ty, ti⟩] = [ci] := by
  simp [varIndices]

theorem varIndices_singleton_ws (n ti : Nat) :
    varIndices [⟨IndexingTemplateToken.whitespaceTok n, ti⟩] = [] := by
  simp [varIndices]

theorem varIndices_singleton_constant (ty : TokType) (cid : Nat) (text : List Nat) (ti : Nat) :
    varIndices [⟨IndexingTemplateToken.constantTok ty cid text, ti⟩] = [] := by
  simp [varIndices]

/-- The fold invariant of `PrelimDocGroup::push`: processing the remaining
template slots turns every column into one of length `numDocs + 1` while
keeping the Variable slots a bijection onto the columns. -/
theorem pushToken_fold_inv (lineToks : List Token) (line : List Nat) (numDocs : Nat) :
    ∀ (rem done : List TemplateTokenWithMeta) (cols : List (List Nat)) (tm : IndexingTermmap),
      (varIndices (done ++ rem)).Nodup →
      (∀ i ∈ varIndices (done ++ rem), i < cols.length) →
      (∀ i < cols.length, i ∈ varIndices (done ++ rem)) →
      (∀ i ∈ varIndices rem, (cols.getD i []).length = numDocs) →
      (∀ i < cols.length, i ∉ varIndices rem → (cols.getD i []).length = numDocs + 1) →
      ((varIndices (rem.foldl (pushToken lineToks line numDocs) (done, cols, tm)).1).Nodup ∧
       (∀ i ∈ varIndices (rem.foldl (pushToken lineToks line numDocs) (done, cols, tm)).1,
          i < (rem.foldl (pushToken lineToks line numDocs) (done, cols, tm)).2.1.length) ∧
       (∀ i < (rem.foldl (pushToken lineToks line numDocs) (done, cols, tm)).2.1.length,
          i ∈ varIndices (rem.foldl (pushToken lineToks line numDocs) (done, cols, tm)).1) ∧
       (∀ c ∈ (rem.foldl (pushToken lineToks line numDocs) (done, cols, tm)).2.1,
          c.length = numDocs + 1)) := by
  intro rem
  induction rem with
  | nil =>
    intro done cols tm h1 h2 h3 h4 h5
    simp only [List.foldl_nil]
    rw [List.append_nil] at h1 h2 h3
    refine ⟨h1, h2, h3, ?_⟩
    intro c hc
    obtain ⟨i, hi, rfl⟩ := List.mem_iff_getElem.mp hc
    rw [← List.getD_eq_getElem cols [] hi]
    exact h5 i hi (by simp [varIndices])
  | cons tt rest ih =>
    intro done cols tm h1 h2 h3 h4 h5
    rw [List.foldl_cons]
    obtain ⟨ttok, tidx⟩ := tt
    cases ttok with
    | whitespaceTok n =>
      simp only [pushToken]
      rw [varIndices_append, varIndices_cons_ws] at h1 h2 h3
      rw [varIndices_cons_ws] at h4 h5
      refine ih (done ++ [⟨IndexingTemplateToken.whitespaceTok n, tidx⟩]) cols tm
        ?_ ?_ ?_ h4 h5
      · rw [varIndices_append, varIndices_append, varIndices_singleton_ws, List.append_nil]
        exact h1
      · rw [varIndices_append, varIndices_append, varIndices_singleton_ws, List.append_nil]
        exact h2
      · rw [varIndices_append, varIndices_append, varIndices_singleton_ws, List.append_nil]
        exact h3
    | constantTok ty cid text =>
      simp only [pushToken]
      rw [varIndices_append, varIndices_cons_constant] at h1 h2 h3
      rw [varIndices_cons_constant] at h4 h5
      by_cases heq :
          text = (((lineToks.getD tidx (Token.whitespace 0)).as_bytes line).getD [])
      · rw [if_pos heq]
        refine ih (done ++ [⟨IndexingTemplateToken.constantTok ty cid text, tidx⟩]) cols tm
          ?_ ?_ ?_ h4 h5
        · rw [varIndices_append, varIndices_append, varIndices_singleton_constant,
            List.append_nil]
          exact h1
        · rw [varIndices_append, varIndices_append, varIndices_singleton_constant,
            List.append_nil]
          exact h2
        · rw [varIndices_append, varIndices_append, varIndices_singleton_constant,
            List.append_nil]
          exact h3
      · rw [if_neg heq]
        -- promotion: a fresh column of length numDocs + 1 is appended
        refine ih (done ++ [⟨IndexingTemplateToken.variableTok false cols.length
            (lineToks.getD tidx (Token.whitespace 0)).tokenType, tidx⟩])
          (cols ++ [List.replicate numDocs cid ++
            [(get_term_id (lineToks.getD tidx (Token.whitespace 0)) line tm false).1]])
          (get_term_id (lineToks.getD tidx (Token.whitespace 0)) line tm false).2
          ?_ ?_ ?_ ?_ ?_
        · rw [varIndices_append, varIndices_append, varIndices_singleton_var,
            List.append_assoc, List.singleton_append]
          rw [List.nodup_middle]
          refine List.Nodup.cons ?_ h1
          intro hmem
          exact absurd (h2 _ hmem) (by omega)
        · rw [varIndices_append, varIndices_append, varIndices_singleton_var,
            List.append_assoc, List.singleton_append]
          intro i hi
          rw [List.length_append, List.length_singleton]
          rcases List.mem_append.mp hi with hid | hicons
          · exact Nat.lt_succ_of_lt (h2 i (List.mem_append.mpr (Or.inl hid)))
          · rcases List.mem_cons.mp hicons with rfl | hir
            · omega
            · exact Nat.lt_succ_of_lt (h2 i (List.mem_append.mpr (Or.inr hir)))
        · rw [varIndices_append, varIndices_append, varIndices_singleton_var,
            List.append_assoc, List.singleton_append]
          intro i hi
          rw [List.length_append, List.length_singleton] at hi
          by_cases hiL : i < cols.length
          · rcases List.mem_append.mp (h3 i hiL) with hid | hir
            · exact List.mem_append.mpr (Or.inl hid)
            · exact List.mem_append.mpr (Or.inr (List.mem_cons_of_mem _ hir))
          · have : i = cols.length := by omega
            subst this
            exact List.mem_append.mpr (Or.inr (List.mem_cons_self _ _))
        · intro i hi
          rw [List.getD_append _ _ _ _ (h2 i (List.mem_append.mpr (Or.inr hi)))]
          exact h4 i hi
        · intro i hi hni
          rw [List.length_append, List.length_singleton] at hi
          by_cases hiL : i < cols.length
          · rw [List.getD_append _ _ _ _ hiL]
            exact h5 i hiL hni
          · have : i = cols.length := by omega
            subst this
            rw [List.getD_append_right _ _ _ _ (by omega)]
            simp
    | variableTok isIdLike colIdx ty =>
      simp only [pushToken]
      rw [varIndices_append, varIndices_cons_var] at h1 h2 h3
      rw [varIndices_cons_var] at h4 h5
      have hcolIdx_lt : colIdx < cols.length :=
        h2 colIdx (List.mem_append.mpr (Or.inr (List.mem_cons_self _ _)))
      have hcolIdx_notin : colIdx ∉ varIndices rest := by
        have hhead := (List.nodup_cons.mp (List.nodup_middle.mp h1)).1
        intro hmem
        exact hhead (List.mem_append.mpr (Or.inr hmem))
      refine ih (done ++ [⟨IndexingTemplateToken.variableTok
          (if numDocs = 10000 then
            check_is_id_like ((cols.set colIdx (cols.getD colIdx [] ++
              [(get_term_id (lineToks.getD tidx (Token.whitespace 0)) line tm
                isIdLike).1])).getD colIdx [])
           else isIdLike) colIdx ty, tidx⟩])
        (cols.set colIdx (cols.getD colIdx [] ++
          [(get_term_id (lineToks.getD tidx (Token.whitespace 0)) line tm isIdLike).1]))
        (get_term_id (lineToks.getD tidx (Token.whitespace 0)) line tm isIdLike).2
        ?_ ?_ ?_ ?_ ?_
      · rw [varIndices_append, varIndices_append, varIndices_singleton_var,
          List.append_assoc, List.singleton_append]
        exact h1
      · rw [varIndices_append, varIndices_append, varIndices_singleton_var,
          List.append_assoc, List.singleton_append, List.length_set]
        exact h2
      · rw [varIndices_append, varIndices_append, varIndices_singleton_var,
          List.append_assoc, List.singleton_append, List.length_set]
        exact h3
      · intro i hi
        have hne : colIdx ≠ i := fun hcontra => hcolIdx_notin (hcontra ▸ hi)
        rw [getD_set_ne_list _ _ hne]
        exact h4 i (List.mem_cons_of_mem _ hi)
      · intro i hi hni
        rw [List.length_set] at hi
        by_cases hic : i = colIdx
        · subst hic
          rw [getD_set_self_list _ _ hcolIdx_lt]
          rw [List.length_append, List.length_singleton]
          rw [h4 i (List.mem_cons_self _ _)]
        · rw [getD_set_ne_list _ _ (fun hcontra => hic hcontra.symm)]
          exact h5 i hi (by
            intro hmem
            rcases List.mem_cons.mp hmem with hc | hr
            · exact hic hc
            · exact hni hr)

/-- `PrelimDocGroup::new` produces a well-formed group (no Variable slots,
no columns, `num_docs = 1`). -/
theorem newTokenStep_fold_varIndices (line : List Nat) :
    ∀ (toks : List Token) (done : List TemplateTokenWithMeta) (idx : Nat)
      (tm : IndexingTermmap),
      varIndices (toks.foldl (newTokenStep line) (done, idx, tm)).1 = varIndices done := by
  intro toks
  induction toks with
  | nil => intro done idx tm; simp
  | cons t ts ih =>
    intro done idx tm
    rw [List.foldl_cons]
    cases t with
    | whitespace n =>
      simp only [newTokenStep]
      rw [ih, varIndices_append, varIndices_singleton_ws, List.append_nil]
    | word s e =>
      simp only [newTokenStep]
      rw [ih, varIndices_append, varIndices_singleton_constant, List.append_nil]
    | number s e =>
      simp only [newTokenStep]
      rw [ih, varIndices_append, varIndices_singleton_constant, List.append_nil]
    | ipv4 s e =>
      simp only [newTokenStep]
      rw [ih, varIndices_append, varIndices_singleton_constant, List.append_nil]
    | uuid s e =>
      simp only [newTokenStep]
      rw [ih, varIndices_append, varIndices_singleton_constant, List.append_nil]
    | punctuation s e =>
      simp only [newTokenStep]
      rw [ih, varIndices_append, varIndices_singleton_constant, List.append_nil]
    | catchAll s e =>
      simp only [newTokenStep]
      rw [ih, varIndices_append, varIndices_singleton_constant, List.append_nil]

theorem new_wf (lineToks : List Token) (line : List Nat) (tm : IndexingTermmap) :
    ((PrelimDocGroup.new lineToks line tm).1).wf := by
  have hv := newTokenStep_fold_varIndices line lineToks [] 0 tm
  refine ⟨?_, ?_, ?_, ?_⟩
  · show (varIndices (lineToks.foldl (newTokenStep line) ([], 0, tm)).1).Nodup
    rw [hv]
    exact List.nodup_nil
  · intro i hi
    rw [show varIndices ((PrelimDocGroup.new lineToks line tm).1).tokens =
      varIndices ([] : List TemplateTokenWithMeta) from hv] at hi
    simp [varIndices] at hi
  · intro i hi
    simp [PrelimDocGroup.new] at hi
  · intro c hc
    simp [PrelimDocGroup.new] at hc

/-- Core of `convert_to_variable` preservation: replacing a non-Variable
slot by a Variable over a fresh column of `num_docs` copies keeps the
group well formed. -/
theorem convert_core (g : PrelimDocGroup) (tokenIdx : Nat) (tt newTok : TemplateTokenWithMeta)
    (hget : g.tokens.get? tokenIdx = some tt)
    (hvt : varIndices [tt] = [])
    (hvn : varIndices [newTok] = [g.columns.length])
    (v : Nat) (hwf : g.wf) :
    PrelimDocGroup.wf
      { tokens := g.tokens.set tokenIdx newTok,
        columns := g.columns ++ [List.replicate g.numDocs v],
        numDocs := g.numDocs } := by
  obtain ⟨h1, h2, h3, h4⟩ := hwf
  obtain ⟨hlt, hgetel⟩ := List.get?_eq_some.mp hget
  have hdecomp : g.tokens = g.tokens.take tokenIdx ++ tt :: g.tokens.drop (tokenIdx + 1) := by
    conv_lhs => rw [← List.take_append_drop tokenIdx g.tokens]
    rw [List.drop_eq_getElem_cons hlt]
    simp only [List.get_eq_getElem] at hgetel
    rw [hgetel]
  have hset : g.tokens.set tokenIdx newTok =
      g.tokens.take tokenIdx ++ newTok :: g.tokens.drop (tokenIdx + 1) :=
    List.set_eq_take_cons_drop newTok hlt
  have hvi_old : varIndices g.tokens =
      varIndices (g.tokens.take tokenIdx) ++ varIndices (g.tokens.drop (tokenIdx + 1)) := by
    conv_lhs => rw [hdecomp]
    rw [show (tt :: g.tokens.drop (tokenIdx + 1)) = [tt] ++ g.tokens.drop (tokenIdx + 1)
      from rfl]
    rw [varIndices_append, varIndices_append, hvt, List.nil_append]
  have hvi_new : varIndices (g.tokens.set tokenIdx newTok) =
      varIndices (g.tokens.take tokenIdx) ++ g.columns.length ::
        varIndices (g.tokens.drop (tokenIdx + 1)) := by
    rw [hset]
    rw [show (newTok :: g.tokens.drop (tokenIdx + 1)) = [newTok] ++ g.tokens.drop (tokenIdx + 1)
      from rfl]
    rw [varIndices_append, varIndices_append, hvn]
    rw [List.singleton_append]
  rw [hvi_old] at h1 h2 h3
  refine ⟨?_, ?_, ?_, ?_⟩
  · rw [hvi_new, List.nodup_middle]
    refine List.Nodup.cons ?_ h1
    intro hmem
    exact absurd (h2 _ hmem) (by omega)
  · rw [hvi_new]
    intro i hi
    simp only [List.length_append, List.length_singleton]
    rcases List.mem_append.mp hi with hia | hib
    · exact Nat.lt_succ_of_lt (h2 i (List.mem_append.mpr (Or.inl hia)))
    · rcases List.mem_cons.mp hib with rfl | hib'
      · omega
      · exact Nat.lt_succ_of_lt (h2 i (List.mem_append.mpr (Or.inr hib')))
  · rw [hvi_new]
    intro i hi
    simp only [List.length_append, List.length_singleton] at hi
    by_cases hiL : i < g.columns.length
    · rcases List.mem_append.mp (h3 i hiL) with hia | hib
      · exact List.mem_append.mpr (Or.inl hia)
      · exact List.mem_append.mpr (Or.inr (List.mem_cons_of_mem _ hib))
    · have : i = g.columns.length := by omega
      subst this
      exact List.mem_append.mpr (Or.inr (List.mem_cons_self _ _))
  · intro c hc
    rcases List.mem_append.mp hc with hca | hcb
    · exact h4 c hca
    · rcases List.mem_cons.mp hcb with rfl | hfalse
      · exact List.length_replicate _ _
      · simp at hfalse

theorem convert_to_variable_wf (g : PrelimDocGroup) (tokenIdx : Nat) (tm : IndexingTermmap)
    (hwf : g.wf) : ((g.convert_to_variable tokenIdx tm).1).wf := by
  cases hget : g.tokens.get? tokenIdx with
  | none =>
    simp only [PrelimDocGroup.convert_to_variable, hget]
    exact hwf
  | some tt =>
    cases httok : tt.token with
    | variableTok b ci ty2 =>
      simp only [PrelimDocGroup.convert_to_variable, hget, httok]
      exact hwf
    | constantTok ty2 cid text =>
      simp only [PrelimDocGroup.convert_to_variable, hget, httok]
      exact convert_core g tokenIdx tt ⟨IndexingTemplateToken.variableTok false
        g.columns.length ty2, tt.tokenIndex⟩ hget
        (by simp [varIndices, httok]) (by simp [varIndices]) cid hwf
    | whitespaceTok n =>
      simp only [PrelimDocGroup.convert_to_variable, hget, httok]
      exact convert_core g tokenIdx tt ⟨IndexingTemplateToken.variableTok false
        g.columns.length TokType.whitespace, tt.tokenIndex⟩ hget
        (by simp [varIndices, httok]) (by simp [varIndices])
        (tm.mutate_or_create (List.replicate n 32) false).1 hwf

theorem push_wf (g : PrelimDocGroup) (lineToks : List Token) (line : List Nat)
    (tm : IndexingTermmap) (hwf : g.wf) : ((g.push lineToks line tm).1).wf := by
  obtain ⟨h1, h2, h3, h4⟩ := hwf
  have hfold := pushToken_fold_inv lineToks line g.numDocs g.tokens [] g.columns tm
    (by simpa using h1) (by simpa using h2) (by simpa using h3)
    (fun i hi => by
      rw [List.getD_eq_getElem _ _ (h2 i hi)]
      exact h4 _ (List.getElem_mem _))
    (fun i hi hni => absurd (h3 i hi) hni)
  exact ⟨hfold.1, hfold.2.1, hfold.2.2.1, hfold.2.2.2⟩

/-- C4: every insertion path of a line into a document group — group
creation (`PrelimDocGroup::new`), constant-to-variable promotion
(`convert_to_variable` and the promoting branch of `push`), and variable
append (`push`) — preserves well-formedness: afterwards every variable
column of the group has length exactly the group's `num_docs` (and the
Variable slots still reference each column exactly once). -/
theorem c4_insert_preserves_column_invariant :
    (∀ (lineToks : List Token) (line : List Nat) (tm : IndexingTermmap),
        ((PrelimDocGroup.new lineToks line tm).1).wf) ∧
    (∀ (g : PrelimDocGroup) (tokenIdx : Nat) (tm : IndexingTermmap), g.wf →
        ((g.convert_to_variable tokenIdx tm).1).wf) ∧
    (∀ (g : PrelimDocGroup) (lineToks : List Token) (line : List Nat)
        (tm : IndexingTermmap), g.wf → ((g.push lineToks line tm).1).wf) :=
  ⟨new_wf, convert_to_variable_wf, push_wf⟩

theorem c4_insert_preserves_column_invariant_witness :
    ((PrelimDocGroup.mk [⟨IndexingTemplateToken.variableTok false 0 TokType.word, 0⟩]
        [[5]] 1).push [Token.word 0 1] [97] IndexingTermmap.empty).1.wf :=
  c4_insert_preserves_column_invariant.2.2
    (PrelimDocGroup.mk [⟨IndexingTemplateToken.variableTok false 0 TokType.word, 0⟩] [[5]] 1)
    [Token.word 0 1] [97] IndexingTermmap.empty (by decide)

/-! ### Template merging (src/src/patterns.rs via src/src/indexing/patterns.rs)
and claim C5 -/

/-- `MergeableTokenGroup` (patterns.rs lines 7-17). -/
inductive MergeableTokenGroup where
  | constantM (text : List Nat)
  | variableM
  | whitespaceM (n : Nat)
deriving DecidableEq

/-- `MergeableTokenGroup::from_token` (patterns.rs lines 19-40): a constant
with support below 1000 docs, or whitespace below 100 docs, is treated as
a variable. -/
def MergeableTokenGroup.from_token (token : IndexingTemplateToken) (numDocs : Nat) :
    MergeableTokenGroup :=
  match token with
  | IndexingTemplateToken.constantTok _ _ text =>
      if numDocs < 1000 then MergeableTokenGroup.variableM
      else MergeableTokenGroup.constantM text
  | IndexingTemplateToken.variableTok _ _ _ => MergeableTokenGroup.variableM
  | IndexingTemplateToken.whitespaceTok n =>
      if numDocs < 100 then MergeableTokenGroup.variableM
      else MergeableTokenGroup.whitespaceM n

/-- The mergeable signature of a group (merge_templates, lines 183-188). -/
def mergeableSignature (g : PrelimDocGroup) : List MergeableTokenGroup :=
  g.tokens.map (fun tt => MergeableTokenGroup.from_token tt.token g.numDocs)

/-- One zipped slot pair of `PrelimDocGroup::append` (preliminary_index.rs
lines 260-284): only Variable-Variable pairs append the source column onto
the target column. -/
def appendColsStep (other : PrelimDocGroup)
    (cols : List (List Nat)) (pair : TemplateTokenWithMeta × TemplateTokenWithMeta) :
    List (List Nat) :=
  match pair.1.token, pair.2.token with
  | IndexingTemplateToken.variableTok _ ti _, IndexingTemplateToken.variableTok _ si _ =>
      cols.set ti (cols.getD ti [] ++ other.columns.getD si [])
  | _, _ => cols

/-- `PrelimDocGroup::append`: `num_docs` sums, variable columns concatenate. -/
def PrelimDocGroup.append (g other : PrelimDocGroup) : PrelimDocGroup :=
  { g with
    numDocs := g.numDocs + other.numDocs,
    columns := (g.tokens.zip other.tokens).foldl (appendColsStep other) g.columns }

/-- The inner loop of `merge_templates` (patterns.rs lines 204-208):
convert the token at `tokenIdx` to a variable in every group of the
bucket, threading the term map. -/
def convertAllGroups (tokenIdx : Nat) :
    List PrelimDocGroup → IndexingTermmap → List PrelimDocGroup × IndexingTermmap
  | [], tm => ([], tm)
  | g :: gs, tm =>
    let r := g.convert_to_variable tokenIdx tm
    let r2 := convertAllGroups tokenIdx gs r.2
    (r.1 :: r2.1, r2.2)

/-- The conversion phase of `merge_templates` (patterns.rs lines 200-210):
for every slot whose signature is Variable, every group in the bucket
promotes that slot. -/
def convertPhase (sig : List MergeableTokenGroup) (gs : List PrelimDocGroup)
    (tm : IndexingTermmap) : List PrelimDocGroup × IndexingTermmap :=
  sig.enum.foldl
    (fun acc p =>
      match p.2 with
      | MergeableTokenGroup.variableM => convertAllGroups p.1 acc.1 acc.2
      | _ => acc)
    (gs, tm)

/-- The per-bucket merge of `merge_templates` (patterns.rs lines 196-220):
convert, then append every group onto the first. -/
def mergeBucket (sig : List MergeableTokenGroup) (gs : List PrelimDocGroup)
    (tm : IndexingTermmap) : PrelimDocGroup × IndexingTermmap :=
  match convertPhase sig gs tm with
  | ([], tm') => (⟨[], [], 0⟩, tm')
  | (first :: rest, tm') => (rest.foldl PrelimDocGroup.append first, tm')

theorem convert_to_variable_numDocs (g : PrelimDocGroup) (i : Nat) (tm : IndexingTermmap) :
    ((g.convert_to_variable i tm).1).numDocs = g.numDocs := by
  cases hget : g.tokens.get? i with
  | none => simp only [PrelimDocGroup.convert_to_variable, hget]
  | some tt =>
    cases httok : tt.token with
    | constantTok ty cid text => simp only [PrelimDocGroup.convert_to_variable, hget, httok]
    | variableTok b ci ty => simp only [PrelimDocGroup.convert_to_variable, hget, httok]
    | whitespaceTok n => simp only [PrelimDocGroup.convert_to_variable, hget, httok]

theorem convertAllGroups_numDocs (i : Nat) :
    ∀ (gs : List PrelimDocGroup) (tm : IndexingTermmap),
      ((convertAllGroups i gs tm).1).map PrelimDocGroup.numDocs =
        gs.map PrelimDocGroup.numDocs := by
  intro gs
  induction gs with
  | nil => intro tm; rfl
  | cons g gs' ih =>
    intro tm
    simp only [convertAllGroups, List.map_cons]
    rw [convert_to_variable_numDocs, ih]

theorem convertPhase_numDocs_aux :
    ∀ (ps : List (Nat × MergeableTokenGroup)) (gs : List PrelimDocGroup)
      (tm : IndexingTermmap),
      ((ps.foldl
          (fun acc p =>
            match p.2 with
            | MergeableTokenGroup.variableM => convertAllGroups p.1 acc.1 acc.2
            | _ => acc)
          (gs, tm)).1).map PrelimDocGroup.numDocs = gs.map PrelimDocGroup.numDocs := by
  intro ps
  induction ps with
  | nil => intro gs tm; rfl
  | cons p ps' ih =>
    intro gs tm
    rw [List.foldl_cons]
    obtain ⟨idx, mtok⟩ := p
    cases mtok with
    | variableM =>
      rw [show (match (idx, MergeableTokenGroup.variableM).2 with
          | MergeableTokenGroup.variableM => convertAllGroups (idx,
              MergeableTokenGroup.variableM).1 (gs, tm).1 (gs, tm).2
          | _ => (gs, tm)) = convertAllGroups idx gs tm from rfl]
      rw [show convertAllGroups idx gs tm =
        ((convertAllGroups idx gs tm).1, (convertAllGroups idx gs tm).2) from rfl]
      rw [ih, convertAllGroups_numDocs]
    | constantM text => exact ih gs tm
    | whitespaceM n => exact ih gs tm

theorem convertPhase_numDocs (sig : List MergeableTokenGroup) (gs : List PrelimDocGroup)
    (tm : IndexingTermmap) :
    ((convertPhase sig gs tm).1).map PrelimDocGroup.numDocs =
      gs.map PrelimDocGroup.numDocs :=
  convertPhase_numDocs_aux sig.enum gs tm

theorem foldl_append_numDocs :
    ∀ (rest : List PrelimDocGroup) (first : PrelimDocGroup),
      (rest.foldl PrelimDocGroup.append first).numDocs =
        first.numDocs + (rest.map PrelimDocGroup.numDocs).sum := by
  intro rest
  induction rest with
  | nil => intro first; simp
  | cons g gs ih =>
    intro first
    rw [List.foldl_cons, ih]
    simp only [PrelimDocGroup.append, List.map_cons, List.sum_cons]
    omega

/-- C5: for every merge bucket, the merged group's `num_docs` equals the
sum of the `num_docs` of the groups in the bucket — no documents are lost
or duplicated by `merge_templates`. -/
theorem c5_merge_preserves_row_count (sig : List MergeableTokenGroup)
    (gs : List PrelimDocGroup) (tm : IndexingTermmap) (hne : gs ≠ []) :
    ((mergeBucket sig gs tm).1).numDocs = (gs.map PrelimDocGroup.numDocs).sum := by
  have hmap := convertPhase_numDocs sig gs tm
  unfold mergeBucket
  cases hphase : convertPhase sig gs tm with
  | mk gs' tm' =>
    cases gs' with
    | nil =>
      rw [hphase] at hmap
      simp only [List.map_nil] at hmap
      exact absurd (List.map_eq_nil_iff.mp hmap.symm) hne
    | cons first rest =>
      rw [hphase] at hmap
      simp only []
      rw [foldl_append_numDocs, ← hmap]
      simp

theorem c5_merge_preserves_row_count_witness :
    ((mergeBucket [] [PrelimDocGroup.mk [] [] 1, PrelimDocGroup.mk [] [] 2]
        IndexingTermmap.empty).1).numDocs =
      (([PrelimDocGroup.mk [] [] 1, PrelimDocGroup.mk [] [] 2]).map
        PrelimDocGroup.numDocs).sum :=
  c5_merge_preserves_row_count [] [PrelimDocGroup.mk [] [] 1, PrelimDocGroup.mk [] [] 2]
    IndexingTermmap.empty (by decide)

/-! ### Template splitting (patterns.rs `move_term_id_to_new_group`) and claim C6 -/

/-- A column filtered to the rows whose index satisfies `keep` (the
per-column `retain` with a row counter of `remove_rows`,
preliminary_index.rs lines 233-245). -/
def filterIdx (keep : Nat → Bool) (l : List Nat) : List Nat :=
  (l.enum.filter (fun p => keep p.1)).map Prod.snd

/-- `PrelimDocGroup::remove_rows`. -/
def PrelimDocGroup.remove_rows (g : PrelimDocGroup) (keep : Nat → Bool) : PrelimDocGroup :=
  { g with columns := g.columns.map (filterIdx keep) }

/-- `move_term_id_to_new_group` (patterns.rs lines 119-177): the rows whose
`colIdx` entry equals `termId` move to a new group whose template holds
the term as a Constant (its bytes looked up in the term map); the column
is removed from the new group and higher column indices shift down.  The
term map is only read. -/
def move_term_id_to_new_group (g : PrelimDocGroup) (termId colIdx : Nat)
    (tm : IndexingTermmap) : PrelimDocGroup × PrelimDocGroup × IndexingTermmap :=
  let col := g.columns.getD colIdx []
  let marked : Nat → Bool := fun row => decide (col.get? row = some termId)
  let markedCount := col.countP (fun x => decide (x = termId))
  let newGroup := { g.remove_rows marked with numDocs := markedCount }
  let grp := { g.remove_rows (fun row => !marked row) with numDocs := g.numDocs - markedCount }
  let text := tm.find_term_for_term_id termId
  let newToks := newGroup.tokens.map (fun ttm =>
    match ttm.token with
    | IndexingTemplateToken.variableTok _il ci ty2 =>
        if ci = colIdx then
          TemplateTokenWithMeta.mk (IndexingTemplateToken.constantTok ty2 termId text)
            ttm.tokenIndex
        else ttm
    | _ => ttm)
  let newToks2 := newToks.map (fun ttm =>
    match ttm.token with
    | IndexingTemplateToken.variableTok il ci ty2 =>
        if ci > colIdx then
          TemplateTokenWithMeta.mk (IndexingTemplateToken.variableTok il (ci - 1) ty2)
            ttm.tokenIndex
        else ttm
    | _ => ttm)
  let newGroup2 := { newGroup with
    tokens := newToks2, columns := newGroup.columns.eraseIdx colIdx }
  (grp, newGroup2, tm)

/-- C6: a template split leaves `num_docs(original after) +
num_docs(new group) = num_docs(original before)` and changes no term-id
assignment (the term map passes through untouched). -/
theorem c6_split_preserves_rows (g : PrelimDocGroup) (termId colIdx : Nat)
    (tm : IndexingTermmap)
    (hcol : (g.columns.getD colIdx []).length = g.numDocs) :
    ((move_term_id_to_new_group g termId colIdx tm).1).numDocs +
      ((move_term_id_to_new_group g termId colIdx tm).2.1).numDocs = g.numDocs ∧
    (move_term_id_to_new_group g termId colIdx tm).2.2 = tm := by
  refine ⟨?_, rfl⟩
  have hle : (g.columns.getD colIdx []).countP (fun x => decide (x = termId)) ≤ g.numDocs := by
    rw [← hcol]
    exact List.countP_le_length _
  simp only [move_term_id_to_new_group]
  omega

/-! ### The dictionary writer (src/src/indexing/write_dict.rs) and claims C7, C9 -/

/-- Strict lexicographic order on byte strings (`<[u8] as Ord>::cmp`):
element-wise, a strict prefix sorts first. -/
def lexLtB : List Nat → List Nat → Bool
  | [], [] => false
  | [], _ :: _ => true
  | _ :: _, [] => false
  | x :: xs, y :: ys => if x < y then true else if y < x then false else lexLtB xs ys

/-- The non-strict companion order. -/
def lexLeB (a b : List Nat) : Bool := !(lexLtB b a)

theorem lexLtB_irrefl : ∀ a : List Nat, lexLtB a a = false := by
  intro a
  induction a with
  | nil => rfl
  | cons x xs ih => simp [lexLtB, lt_self_iff_false, ih]

theorem lexLtB_trans :
    ∀ a b c : List Nat, lexLtB a b = true → lexLtB b c = true → lexLtB a c = true := by
  intro a
  induction a with
  | nil =>
    intro b c hab hbc
    cases b with
    | nil => simp [lexLtB] at hab
    | cons y ys =>
      cases c with
      | nil => simp [lexLtB] at hbc
      | cons z zs => rfl
  | cons x xs ih =>
    intro b c hab hbc
    cases b with
    | nil => simp [lexLtB] at hab
    | cons y ys =>
      cases c with
      | nil => simp [lexLtB] at hbc
      | cons z zs =>
        simp only [lexLtB] at hab hbc ⊢
        by_cases hxy : x < y
        · by_cases hyz : y < z
          · rw [if_pos (Nat.lt_trans hxy hyz)]
          · rw [if_neg hyz] at hbc
            by_cases hzy : z < y
            · rw [if_pos hzy] at hbc
              exact absurd hbc (by simp)
            · have hyzeq : y = z := by omega
              subst hyzeq
              rw [if_pos hxy]
        · rw [if_neg hxy] at hab
          by_cases hyx : y < x
          · rw [if_pos hyx] at hab
            exact absurd hab (by simp)
          · rw [if_neg hyx] at hab
            have hxyeq : x = y := by omega
            subst hxyeq
            by_cases hyz : x < z
            · rw [if_pos hyz]
            · rw [if_neg hyz] at hbc ⊢
              by_cases hzy : z < x
              · rw [if_pos hzy] at hbc
                exact absurd hbc (by simp)
              · rw [if_neg hzy] at hbc ⊢
                exact ih ys zs hab hbc

theorem lexLtB_trichotomy (a b : List Nat) :
    lexLtB a b = true ∨ a = b ∨ lexLtB b a = true := by
  induction a generalizing b with
  | nil =>
    cases b with
    | nil => exact Or.inr (Or.inl rfl)
    | cons y ys => exact Or.inl rfl
  | cons x xs ih =>
    cases b with
    | nil => exact Or.inr (Or.inr rfl)
    | cons y ys =>
      rcases Nat.lt_trichotomy x y with h | h | h
      · exact Or.inl (by simp [lexLtB, h])
      · subst h
        rcases ih ys with h2 | h2 | h2
        · exact Or.inl (by simp [lexLtB, lt_self_iff_false, h2])
        · exact Or.inr (Or.inl (by rw [h2]))
        · exact Or.inr (Or.inr (by simp [lexLtB, lt_self_iff_false, h2]))
      · exact Or.inr (Or.inr (by simp [lexLtB, h]))

theorem lexLtB_asymm {a b : List Nat} (h : lexLtB a b = true) : lexLtB b a = false := by
  cases hba : lexLtB b a with
  | false => rfl
  | true =>
    have := lexLtB_trans a b a h hba
    rw [lexLtB_irrefl] at this
    exact absurd this (by simp)

theorem lexLtB_ne {a b : List Nat} (h : lexLtB a b = true) : a ≠ b := by
  intro heq
  subst heq
  rw [lexLtB_irrefl] at h
  exact absurd h (by simp)

theorem lexLtB_of_leB_of_ne {a b : List Nat} (hle : lexLeB a b = true) (hne : a ≠ b) :
    lexLtB a b = true := by
  rcases lexLtB_trichotomy a b with h | h | h
  · exact h
  · exact absurd h hne
  · simp [lexLeB, h] at hle

theorem lexLtB_of_ltB_of_leB {a b c : List Nat} (h1 : lexLtB a b = true)
    (h2 : lexLeB b c = true) : lexLtB a c = true := by
  rcases lexLtB_trichotomy a c with h | h | h
  · exact h
  · subst h
    simp only [lexLeB, Bool.not_eq_true'] at h2
    rw [h2] at h1
    exact absurd h1 (by simp)
  · simp only [lexLeB, Bool.not_eq_true'] at h2
    have := lexLtB_trans c a b h h1
    rw [h2] at this
    exact absurd this (by simp)

theorem lexLeB_trans {a b c : List Nat} (h1 : lexLeB a b = true) (h2 : lexLeB b c = true) :
    lexLeB a c = true := by
  simp only [lexLeB, Bool.not_eq_true'] at h1 h2 ⊢
  cases hca : lexLtB c a with
  | false => rfl
  | true =>
    rcases lexLtB_trichotomy a b with h | h | h
    · have := lexLtB_trans c a b hca h
      rw [h2] at this
      exact absurd this (by simp)
    · subst h
      rw [hca] at h2
      exact absurd h2 (by simp)
    · rw [h1] at h
      exact absurd h (by simp)

theorem lexLeB_total (a b : List Nat) : lexLeB a b = true ∨ lexLeB b a = true := by
  rcases lexLtB_trichotomy a b with h | h | h
  · exact Or.inl (by simp [lexLeB, lexLtB_asymm h])
  · subst h
    exact Or.inl (by simp [lexLeB, lexLtB_irrefl])
  · exact Or.inr (by simp [lexLeB, lexLtB_asymm h])

/-- The comparator of `sorted_terms.sort_unstable_by(|a, b| a.0.cmp(b.0))`. -/
def dictLe (a b : List Nat × Nat) : Prop := lexLeB a.1 b.1 = true

instance : DecidableRel dictLe := fun a b => instDecidableEqBool (lexLeB a.1 b.1) true

instance : IsTotal (List Nat × Nat) dictLe := ⟨fun a b => lexLeB_total a.1 b.1⟩

instance : IsTrans (List Nat × Nat) dictLe := ⟨fun _ _ _ => lexLeB_trans⟩

/-- The run-consuming inner `while let Some((next_term_bytes, _)) = iter.peek()`
loop of `write_dictionary_and_generate_mapping` (write_dict.rs lines
45-55): consume equal-bytes entries, mapping each old id to the current
`new_id` and accumulating (sort+dedup) the posting lists. -/
def dictRun (postings : List (List Nat)) (termBytes : List Nat) (newId : Nat) :
    List (List Nat × Nat) → List Nat → List Nat →
      List (List Nat × Nat) × List Nat × List Nat
  | [], old2new, tids => ([], old2new, tids)
  | (b, o) :: rest, old2new, tids =>
    if b = termBytes then
      let old2new' := old2new.set o newId
      let t := tids ++ postings.getD o []
      let tids' := if t.length > 1 then (t.insertionSort (· ≤ ·)).dedup else t
      dictRun postings termBytes newId rest old2new' tids'
    else ((b, o) :: rest, old2new, tids)

/-- The outer `while let Some((term_bytes, old_id)) = iter.next()` loop
(write_dict.rs lines 38-68).  Fuel only bounds the iteration; each step
consumes at least the head, so fuel `length + 1` never runs out.  A term
whose accumulated posting list is empty is skipped without incrementing
`new_id`. -/
def dictLoopF (postings : List (List Nat)) :
    Nat → List (List Nat × Nat) → Nat → List Nat → List (List Nat × List Nat) →
      List (List Nat × List Nat) × List Nat
  | 0, _, _, old2new, entries => (entries, old2new)
  | _ + 1, [], _, old2new, entries => (entries, old2new)
  | fuel + 1, (bytes, oldId) :: rest, newId, old2new, entries =>
    let old2new1 := old2new.set oldId newId
    let tids0 := postings.getD oldId []
    let r := dictRun postings bytes newId rest old2new1 tids0
    let tids2 := if r.2.2.length > 1 then r.2.2.insertionSort (· ≤ ·) else r.2.2
    if tids2 = [] then
      dictLoopF postings fuel r.1 newId r.2.1 entries
    else
      dictLoopF postings fuel r.1 (newId + 1) r.2.1 (entries ++ [(bytes, tids2)])

theorem sortDedup_eq_nil (t : List Nat) :
    (if t.length > 1 then (t.insertionSort (· ≤ ·)).dedup else t) = [] ↔ t = [] := by
  split
  · rename_i hlen
    constructor
    · intro h
      have hsortnil : t.insertionSort (· ≤ ·) = [] := (List.dedup_eq_nil _).mp h
      have hperm := List.perm_insertionSort (· ≤ ·) t
      rw [hsortnil] at hperm
      exact (hperm.symm).eq_nil
    · intro h
      subst h
      simp at hlen
  · exact Iff.rfl

theorem dictRun_spec (postings : List (List Nat)) (termBytes : List Nat) (newId : Nat) :
    ∀ (l : List (List Nat × Nat)) (o2n : List Nat) (tids : List Nat),
      (dictRun postings termBytes newId l o2n tids).1 =
          l.dropWhile (fun e => decide (e.1 = termBytes)) ∧
      (dictRun postings termBytes newId l o2n tids).2.1.length = o2n.length ∧
      (∀ j, j ∉ (l.takeWhile (fun e => decide (e.1 = termBytes))).map Prod.snd →
          (dictRun postings termBytes newId l o2n tids).2.1.getD j 0 = o2n.getD j 0) ∧
      (∀ j, j ∈ (l.takeWhile (fun e => decide (e.1 = termBytes))).map Prod.snd →
          j < o2n.length →
          (dictRun postings termBytes newId l o2n tids).2.1.getD j 0 = newId) ∧
      ((dictRun postings termBytes newId l o2n tids).2.2 = [] ↔
        (tids = [] ∧ ∀ e ∈ l.takeWhile (fun e => decide (e.1 = termBytes)),
          postings.getD e.2 [] = [])) := by
  intro l
  induction l with
  | nil =>
    intro o2n tids
    refine ⟨rfl, rfl, fun j _ => rfl, ?_, ?_⟩
    · intro j hj
      simp at hj
    · simp [dictRun]
  | cons e rest ih =>
    intro o2n tids
    obtain ⟨b, o⟩ := e
    by_cases hb : b = termBytes
    · have hstep : dictRun postings termBytes newId ((b, o) :: rest) o2n tids =
          dictRun postings termBytes newId rest (o2n.set o newId)
            (if (tids ++ postings.getD o []).length > 1 then
              ((tids ++ postings.getD o []).insertionSort (· ≤ ·)).dedup
             else tids ++ postings.getD o []) := by
        simp only [dictRun, if_pos hb]
      have htw : ((b, o) :: rest).takeWhile (fun e => decide (e.1 = termBytes)) =
          (b, o) :: rest.takeWhile (fun e => decide (e.1 = termBytes)) := by
        simp [List.takeWhile_cons, hb]
      have hdw : ((b, o) :: rest).dropWhile (fun e => decide (e.1 = termBytes)) =
          rest.dropWhile (fun e => decide (e.1 = termBytes)) := by
        simp [List.dropWhile_cons, hb]
      have ihs := ih (o2n.set o newId)
        (if (tids ++ postings.getD o []).length > 1 then
          ((tids ++ postings.getD o []).insertionSort (· ≤ ·)).dedup
         else tids ++ postings.getD o [])
      rw [hstep, htw, hdw]
      refine ⟨ihs.1, ?_, ?_, ?_, ?_⟩
      · rw [ihs.2.1, List.length_set]
      · intro j hj
        have hjo : j ≠ o := by
          intro hcontra
          exact hj (by
            subst hcontra
            exact List.mem_cons_self _ _)
        have hjrest : j ∉ (rest.takeWhile (fun e => decide (e.1 = termBytes))).map Prod.snd :=
          fun hcontra => hj (List.mem_cons_of_mem _ hcontra)
        rw [ihs.2.2.1 j hjrest, getD_set_ne_list _ _ (fun hcontra => hjo hcontra.symm)]
      · intro j hj hjlt
        rcases List.mem_cons.mp hj with hjo | hjrest
        · by_cases hjr : j ∈ (rest.takeWhile (fun e => decide (e.1 = termBytes))).map Prod.snd
          · exact ihs.2.2.2.1 j hjr (by rw [List.length_set]; exact hjlt)
          · subst hjo
            rw [ihs.2.2.1 _ hjr, getD_set_self_list _ _ hjlt]
        · exact ihs.2.2.2.1 j hjrest (by rw [List.length_set]; exact hjlt)
      · rw [ihs.2.2.2.2, sortDedup_eq_nil, List.append_eq_nil]
        constructor
        · rintro ⟨⟨ht, hp⟩, hrest⟩
          refine ⟨ht, ?_⟩
          intro e he
          rcases List.mem_cons.mp he with rfl | he'
          · exact hp
          · exact hrest e he'
        · rintro ⟨ht, hall⟩
          exact ⟨⟨ht, hall (b, o) (List.mem_cons_self _ _)⟩,
            fun e he => hall e (List.mem_cons_of_mem _ he)⟩
    · have hstep : dictRun postings termBytes newId ((b, o) :: rest) o2n tids =
          ((b, o) :: rest, o2n, tids) := by
        simp only [dictRun, if_neg hb]
      have htw : ((b, o) :: rest).takeWhile (fun e => decide (e.1 = termBytes)) = [] := by
        simp [List.takeWhile_cons, hb]
      have hdw : ((b, o) :: rest).dropWhile (fun e => decide (e.1 = termBytes)) =
          (b, o) :: rest := by
        simp [List.dropWhile_cons, hb]
      rw [hstep, htw, hdw]
      refine ⟨rfl, rfl, fun j _ => rfl, ?_, ?_⟩
      · intro j hj
        simp at hj
      · simp

theorem takeWhile_key_eq (bytes : List Nat) (l : List (List Nat × Nat)) :
    ∀ x ∈ l.takeWhile (fun e => decide (e.1 = bytes)), x.1 = bytes := by
  intro x hx
  simpa using List.mem_takeWhile_imp hx

theorem dropWhile_keys_gt (bytes : List Nat) :
    ∀ (rest : List (List Nat × Nat)),
      List.Pairwise (fun a b => lexLeB a.1 b.1 = true) rest →
      (∀ x ∈ rest, lexLeB bytes x.1 = true) →
      ∀ x ∈ rest.dropWhile (fun e => decide (e.1 = bytes)), lexLtB bytes x.1 = true := by
  intro rest
  induction rest with
  | nil =>
    intro _ _ x hx
    simp at hx
  | cons y ys ih =>
    intro hpw hall x hx
    by_cases hy : y.1 = bytes
    · rw [List.dropWhile_cons, if_pos (by simp [hy])] at hx
      exact ih (List.pairwise_cons.mp hpw).2
        (fun z hz => hall z (List.mem_cons_of_mem _ hz)) x hx
    · rw [List.dropWhile_cons, if_neg (by simp [hy])] at hx
      rcases List.mem_cons.mp hx with rfl | hx'
      · exact lexLtB_of_leB_of_ne (hall x (List.mem_cons_self _ _))
          (fun hcontra => hy hcontra.symm)
      · have hylt : lexLtB bytes y.1 = true :=
          lexLtB_of_leB_of_ne (hall y (List.mem_cons_self _ _))
            (fun hcontra => hy hcontra.symm)
        exact lexLtB_of_ltB_of_leB hylt ((List.pairwise_cons.mp hpw).1 x hx')

/-- The global invariant of the `write_dictionary` outer loop on a sorted
suffix: the inserted entries extend the accumulator with keys drawn from
the suffix, their keys stay strictly increasing, `old_to_new` is written
exactly at the ids of the suffix, each old id receives the number of
inserted entries whose key precedes its bytes, and a term with only empty
posting lists is never inserted. -/
theorem dictLoopF_spec (postings : List (List Nat)) :
    ∀ (fuel : Nat) (l : List (List Nat × Nat)) (newId : Nat) (o2n : List Nat)
      (entries : List (List Nat × List Nat)),
      l.length ≤ fuel →
      List.Pairwise (fun a b => lexLeB a.1 b.1 = true) l →
      (l.map Prod.snd).Nodup →
      (∀ e ∈ l, e.2 < o2n.length) →
      newId = entries.length →
      List.Pairwise (fun a b => lexLtB a b = true) (entries.map Prod.fst) →
      (∀ e ∈ entries, ∀ x ∈ l, lexLtB e.1 x.1 = true) →
      (∃ tail, (dictLoopF postings fuel l newId o2n entries).1 = entries ++ tail ∧
          ∀ k ∈ tail.map Prod.fst, ∃ x, x ∈ l ∧ x.1 = k) ∧
      List.Pairwise (fun a b => lexLtB a b = true)
        ((dictLoopF postings fuel l newId o2n entries).1.map Prod.fst) ∧
      (dictLoopF postings fuel l newId o2n entries).2.length = o2n.length ∧
      (∀ j, j ∉ l.map Prod.snd →
        (dictLoopF postings fuel l newId o2n entries).2.getD j 0 = o2n.getD j 0) ∧
      (∀ b o, (b, o) ∈ l →
        (dictLoopF postings fuel l newId o2n entries).2.getD o 0 =
          ((dictLoopF postings fuel l newId o2n entries).1.map Prod.fst).countP
            (fun k => lexLtB k b)) ∧
      (∀ b, (∀ e ∈ l, e.1 = b → postings.getD e.2 [] = []) →
        b ∉ entries.map Prod.fst →
        b ∉ (dictLoopF postings fuel l newId o2n entries).1.map Prod.fst) := by
  intro fuel
  induction fuel with
  | zero =>
    intro l newId o2n entries hfuel hsorted hids hbound hinv hents1 hents2
    have hl : l = [] := List.eq_nil_of_length_eq_zero (Nat.le_zero.mp hfuel)
    subst hl
    have hstep : dictLoopF postings 0 [] newId o2n entries = (entries, o2n) := rfl
    rw [hstep]
    exact ⟨⟨[], by simp, by simp⟩, hents1, rfl, fun j _ => rfl,
      fun b o hbo => absurd hbo (by simp), fun b _ hb => hb⟩
  | succ fuel ihf =>
    intro l newId o2n entries hfuel hsorted hids hbound hinv hents1 hents2
    cases l with
    | nil =>
      have hstep : dictLoopF postings (fuel + 1) [] newId o2n entries = (entries, o2n) := rfl
      rw [hstep]
      exact ⟨⟨[], by simp, by simp⟩, hents1, rfl, fun j _ => rfl,
        fun b o hbo => absurd hbo (by simp), fun b _ hb => hb⟩
    | cons hd rest =>
      obtain ⟨bytes, oldId⟩ := hd
      have hrun := dictRun_spec postings bytes newId rest (o2n.set oldId newId)
        (postings.getD oldId [])
      have hle_rest : ∀ x ∈ rest, lexLeB bytes x.1 = true := by
        intro x hx
        exact (List.pairwise_cons.mp hsorted).1 x hx
      have hsorted_rest : List.Pairwise (fun a b => lexLeB a.1 b.1 = true) rest :=
        (List.pairwise_cons.mp hsorted).2
      have hgt := dropWhile_keys_gt bytes rest hsorted_rest hle_rest
      have hrunkey := takeWhile_key_eq bytes rest
      have hrest_decomp : rest.takeWhile (fun e => decide (e.1 = bytes)) ++
          rest.dropWhile (fun e => decide (e.1 = bytes)) = rest :=
        List.takeWhile_append_dropWhile _ _
      have hids0 : (oldId :: rest.map Prod.snd).Nodup := by simpa using hids
      have hids_cons := List.nodup_cons.mp hids0
      have hoid_rest : oldId ∉ rest.map Prod.snd := hids_cons.1
      have hids_rest : (rest.map Prod.snd).Nodup := hids_cons.2
      have hids_decomp : rest.map Prod.snd =
          (rest.takeWhile (fun e => decide (e.1 = bytes))).map Prod.snd ++
          (rest.dropWhile (fun e => decide (e.1 = bytes))).map Prod.snd := by
        rw [← List.map_append, hrest_decomp]
      have hids_append := List.nodup_append.mp (hids_decomp ▸ hids_rest)
      have hdisj : ∀ j ∈ (rest.takeWhile (fun e => decide (e.1 = bytes))).map Prod.snd,
          j ∉ (rest.dropWhile (fun e => decide (e.1 = bytes))).map Prod.snd :=
        fun j hj => hids_append.2.2 hj
      have hrest'_sub : (rest.dropWhile (fun e => decide (e.1 = bytes))).Sublist rest :=
        List.dropWhile_sublist _
      have hrest'_ids : ((rest.dropWhile (fun e => decide (e.1 = bytes))).map
          Prod.snd).Nodup := hids_append.2.1
      have hsorted' : List.Pairwise (fun a b => lexLeB a.1 b.1 = true)
          (rest.dropWhile (fun e => decide (e.1 = bytes))) :=
        List.Pairwise.sublist hrest'_sub hsorted_rest
      have hfuel' : (rest.dropWhile (fun e => decide (e.1 = bytes))).length ≤ fuel := by
        have h1 := hrest'_sub.length_le
        simp only [List.length_cons] at hfuel
        omega
      have hlen_run : (dictRun postings bytes newId rest (o2n.set oldId newId)
          (postings.getD oldId [])).2.1.length = o2n.length := by
        rw [hrun.2.1, List.length_set]
      have hbound' : ∀ e ∈ rest.dropWhile (fun e => decide (e.1 = bytes)),
          e.2 < (dictRun postings bytes newId rest (o2n.set oldId newId)
            (postings.getD oldId [])).2.1.length := by
        intro e he
        rw [hlen_run]
        exact hbound e (List.mem_cons_of_mem _ (hrest'_sub.subset he))
      have hoid_lt : oldId < o2n.length := hbound (bytes, oldId) (List.mem_cons_self _ _)
      -- value after the run processing, for ids of the head run
      have hafter_run : ∀ j, (j = oldId ∨
          j ∈ (rest.takeWhile (fun e => decide (e.1 = bytes))).map Prod.snd) →
          (dictRun postings bytes newId rest (o2n.set oldId newId)
            (postings.getD oldId [])).2.1.getD j 0 = newId := by
        intro j hj
        rcases hj with rfl | hj
        · have hnotin : j ∉ (rest.takeWhile (fun e => decide (e.1 = bytes))).map Prod.snd := by
            intro hmem
            exact hoid_rest (by
              rw [hids_decomp]
              exact List.mem_append.mpr (Or.inl hmem))
          rw [hrun.2.2.1 j hnotin, getD_set_self_list _ _ hoid_lt]
        · refine hrun.2.2.2.1 j hj ?_
          rw [List.length_set]
          have : j ∈ rest.map Prod.snd := by
            rw [hids_decomp]
            exact List.mem_append.mpr (Or.inl hj)
          obtain ⟨e, he, rfl⟩ := List.mem_map.mp this
          exact hbound e (List.mem_cons_of_mem _ he)
      set r := dictRun postings bytes newId rest (o2n.set oldId newId)
        (postings.getD oldId []) with hrdef
      set tids2 := if r.2.2.length > 1 then r.2.2.insertionSort (· ≤ ·) else r.2.2
        with htids2def
      have hstep : dictLoopF postings (fuel + 1) ((bytes, oldId) :: rest) newId o2n entries =
          if tids2 = [] then dictLoopF postings fuel r.1 newId r.2.1 entries
          else dictLoopF postings fuel r.1 (newId + 1) r.2.1
            (entries ++ [(bytes, tids2)]) := rfl
      rw [hrun.1] at hstep
      have hframe_combined : ∀ j, j ∉ ((bytes, oldId) :: rest).map Prod.snd →
          r.2.1.getD j 0 = o2n.getD j 0 := by
        intro j hj
        have hjmap : j ∉ oldId :: rest.map Prod.snd := by simpa using hj
        have hj1 : j ≠ oldId := fun h => hjmap (h ▸ List.mem_cons_self _ _)
        have hj2 : j ∉ rest.map Prod.snd := fun h => hjmap (List.mem_cons_of_mem _ h)
        have hj4 : j ∉ (rest.takeWhile (fun e => decide (e.1 = bytes))).map Prod.snd :=
          fun h => hj2 (hids_decomp ▸ List.mem_append.mpr (Or.inl h))
        rw [hrun.2.2.1 j hj4, getD_set_ne_list _ _ (fun h => hj1 h.symm)]
      have hnotin_rest' : ∀ j, (j = oldId ∨
          j ∈ (rest.takeWhile (fun e => decide (e.1 = bytes))).map Prod.snd) →
          j ∉ (rest.dropWhile (fun e => decide (e.1 = bytes))).map Prod.snd := by
        intro j hj
        rcases hj with rfl | hj
        · intro hmem
          exact hoid_rest (hids_decomp ▸ List.mem_append.mpr (Or.inr hmem))
        · exact hdisj j hj
      by_cases hskip : tids2 = []
      · rw [if_pos hskip] at hstep
        have hih := ihf (rest.dropWhile (fun e => decide (e.1 = bytes))) newId r.2.1 entries
          hfuel' hsorted' hrest'_ids hbound' hinv hents1
          (fun e he x hx => hents2 e he x (List.mem_cons_of_mem _ (hrest'_sub.subset hx)))
        rw [hstep]
        obtain ⟨⟨tail, htail, hprov⟩, hA, hlen, hframe, hB, hC⟩ := hih
        refine ⟨⟨tail, htail, ?_⟩, hA, ?_, ?_, ?_, ?_⟩
        · intro k hk
          obtain ⟨x, hx, hxk⟩ := hprov k hk
          exact ⟨x, List.mem_cons_of_mem _ (hrest'_sub.subset hx), hxk⟩
        · rw [hlen, hlen_run]
        · intro j hj
          have hjmap : j ∉ oldId :: rest.map Prod.snd := by simpa using hj
          have hj2 : j ∉ rest.map Prod.snd := fun h => hjmap (List.mem_cons_of_mem _ h)
          have hj3 : j ∉ (rest.dropWhile (fun e => decide (e.1 = bytes))).map Prod.snd :=
            fun h => hj2 (hids_decomp ▸ List.mem_append.mpr (Or.inr h))
          rw [hframe j hj3]
          exact hframe_combined j hj
        · intro b o hbo
          rcases List.mem_cons.mp hbo with hhead | hrest2
          · cases hhead
            have hval : (dictLoopF postings fuel
                (rest.dropWhile (fun e => decide (e.1 = bytes))) newId r.2.1
                entries).2.getD oldId 0 = newId := by
              rw [hframe oldId (hnotin_rest' oldId (Or.inl rfl))]
              exact hafter_run oldId (Or.inl rfl)
            rw [hval, htail, List.map_append, List.countP_append]
            have hcount1 : (entries.map Prod.fst).countP (fun k => lexLtB k bytes) =
                (entries.map Prod.fst).length := by
              rw [List.countP_eq_length]
              intro k hk
              obtain ⟨e, he, rfl⟩ := List.mem_map.mp hk
              exact hents2 e he (bytes, oldId) (List.mem_cons_self _ _)
            have hcount2 : (tail.map Prod.fst).countP (fun k => lexLtB k bytes) = 0 := by
              rw [List.countP_eq_zero]
              intro k hk
              obtain ⟨x, hx, hxk⟩ := hprov k hk
              have hx2 := hgt x hx
              rw [hxk] at hx2
              simp [lexLtB_asymm hx2]
            rw [hcount1, hcount2, List.length_map, hinv]
            omega
          · rw [← hrest_decomp] at hrest2
            rcases List.mem_append.mp hrest2 with hrun2 | hrest'2
            · have hbbytes : b = bytes := hrunkey (b, o) hrun2
              subst hbbytes
              have homem : o ∈ (rest.takeWhile (fun e => decide (e.1 = b))).map Prod.snd :=
                List.mem_map.mpr ⟨(b, o), hrun2, rfl⟩
              have hval : (dictLoopF postings fuel
                  (rest.dropWhile (fun e => decide (e.1 = b))) newId r.2.1
                  entries).2.getD o 0 = newId := by
                rw [hframe o (hnotin_rest' o (Or.inr homem))]
                exact hafter_run o (Or.inr homem)
              rw [hval, htail, List.map_append, List.countP_append]
              have hcount1 : (entries.map Prod.fst).countP (fun k => lexLtB k b) =
                  (entries.map Prod.fst).length := by
                rw [List.countP_eq_length]
                intro k hk
                obtain ⟨e, he, rfl⟩ := List.mem_map.mp hk
                exact hents2 e he (b, oldId) (List.mem_cons_self _ _)
              have hcount2 : (tail.map Prod.fst).countP (fun k => lexLtB k b) = 0 := by
                rw [List.countP_eq_zero]
                intro k hk
                obtain ⟨x, hx, hxk⟩ := hprov k hk
                have hx2 := hgt x hx
                rw [hxk] at hx2
                simp [lexLtB_asymm hx2]
              rw [hcount1, hcount2, List.length_map, hinv]
              omega
            · exact hB b o hrest'2
        · intro b hb hbent
          refine hC b ?_ hbent
          intro e he hke
          exact hb e (List.mem_cons_of_mem _ (hrest'_sub.subset he)) hke
      · rw [if_neg hskip] at hstep
        have hlt_entries_bytes : ∀ e ∈ entries, lexLtB e.1 bytes = true :=
          fun e he => hents2 e he (bytes, oldId) (List.mem_cons_self _ _)
        have hents1' : List.Pairwise (fun a b => lexLtB a b = true)
            ((entries ++ [(bytes, tids2)]).map Prod.fst) := by
          rw [List.map_append, List.pairwise_append]
          refine ⟨hents1, by simp, ?_⟩
          intro a ha k hk
          rw [show (([(bytes, tids2)]).map Prod.fst) = [bytes] from rfl] at hk
          rcases List.mem_singleton.mp hk with rfl
          obtain ⟨e, he, rfl⟩ := List.mem_map.mp ha
          exact hlt_entries_bytes e he
        have hents2' : ∀ e ∈ entries ++ [(bytes, tids2)],
            ∀ x ∈ rest.dropWhile (fun e => decide (e.1 = bytes)),
              lexLtB e.1 x.1 = true := by
          intro e he x hx
          rcases List.mem_append.mp he with he' | he'
          · exact hents2 e he' x (List.mem_cons_of_mem _ (hrest'_sub.subset hx))
          · rcases List.mem_singleton.mp he' with rfl
            exact hgt x hx
        have hinv' : newId + 1 = (entries ++ [(bytes, tids2)]).length := by
          rw [List.length_append, List.length_singleton, hinv]
        have hih := ihf (rest.dropWhile (fun e => decide (e.1 = bytes))) (newId + 1) r.2.1
          (entries ++ [(bytes, tids2)]) hfuel' hsorted' hrest'_ids hbound' hinv'
          hents1' hents2'
        rw [hstep]
        obtain ⟨⟨tail, htail, hprov⟩, hA, hlen, hframe, hB, hC⟩ := hih
        have htail2 : (dictLoopF postings fuel
            (rest.dropWhile (fun e => decide (e.1 = bytes))) (newId + 1) r.2.1
            (entries ++ [(bytes, tids2)])).1 = entries ++ ((bytes, tids2) :: tail) := by
          rw [htail, List.append_assoc, List.singleton_append]
        refine ⟨⟨(bytes, tids2) :: tail, htail2, ?_⟩, hA, ?_, ?_, ?_, ?_⟩
        · intro k hk
          rw [List.map_cons] at hk
          rcases List.mem_cons.mp hk with rfl | hk'
          · exact ⟨(k, oldId), List.mem_cons_self _ _, rfl⟩
          · obtain ⟨x, hx, hxk⟩ := hprov k hk'
            exact ⟨x, List.mem_cons_of_mem _ (hrest'_sub.subset hx), hxk⟩
        · rw [hlen, hlen_run]
        · intro j hj
          have hjmap : j ∉ oldId :: rest.map Prod.snd := by simpa using hj
          have hj2 : j ∉ rest.map Prod.snd := fun h => hjmap (List.mem_cons_of_mem _ h)
          have hj3 : j ∉ (rest.dropWhile (fun e => decide (e.1 = bytes))).map Prod.snd :=
            fun h => hj2 (hids_decomp ▸ List.mem_append.mpr (Or.inr h))
          rw [hframe j hj3]
          exact hframe_combined j hj
        · intro b o hbo
          rcases List.mem_cons.mp hbo with hhead | hrest2
          · cases hhead
            have hval : (dictLoopF postings fuel
                (rest.dropWhile (fun e => decide (e.1 = bytes))) (newId + 1) r.2.1
                (entries ++ [(bytes, tids2)])).2.getD oldId 0 = newId := by
              rw [hframe oldId (hnotin_rest' oldId (Or.inl rfl))]
              exact hafter_run oldId (Or.inl rfl)
            rw [hval, htail2, List.map_append, List.countP_append]
            have hcount1 : (entries.map Prod.fst).countP (fun k => lexLtB k bytes) =
                (entries.map Prod.fst).length := by
              rw [List.countP_eq_length]
              intro k hk
              obtain ⟨e, he, rfl⟩ := List.mem_map.mp hk
              exact hlt_entries_bytes e he
            have hcount2 : (((bytes, tids2) :: tail).map Prod.fst).countP
                (fun k => lexLtB k bytes) = 0 := by
              rw [List.countP_eq_zero]
              intro k hk
              rw [List.map_cons] at hk
              rcases List.mem_cons.mp hk with rfl | hk'
              · simp [lexLtB_irrefl]
              · obtain ⟨x, hx, hxk⟩ := hprov k hk'
                have hx2 := hgt x hx
                rw [hxk] at hx2
                simp [lexLtB_asymm hx2]
            rw [hcount1, hcount2, List.length_map, hinv]
            omega
          · rw [← hrest_decomp] at hrest2
            rcases List.mem_append.mp hrest2 with hrun2 | hrest'2
            · have hbbytes : b = bytes := hrunkey (b, o) hrun2
              subst hbbytes
              have homem : o ∈ (rest.takeWhile (fun e => decide (e.1 = b))).map Prod.snd :=
                List.mem_map.mpr ⟨(b, o), hrun2, rfl⟩
              have hval : (dictLoopF postings fuel
                  (rest.dropWhile (fun e => decide (e.1 = b))) (newId + 1) r.2.1
                  (entries ++ [(b, tids2)])).2.getD o 0 = newId := by
                rw [hframe o (hnotin_rest' o (Or.inr homem))]
                exact hafter_run o (Or.inr homem)
              rw [hval, htail2, List.map_append, List.countP_append]
              have hcount1 : (entries.map Prod.fst).countP (fun k => lexLtB k b) =
                  (entries.map Prod.fst).length := by
                rw [List.countP_eq_length]
                intro k hk
                obtain ⟨e, he, rfl⟩ := List.mem_map.mp hk
                exact hlt_entries_bytes e he
              have hcount2 : (((b, tids2) :: tail).map Prod.fst).countP
                  (fun k => lexLtB k b) = 0 := by
                rw [List.countP_eq_zero]
                intro k hk
                rw [List.map_cons] at hk
                rcases List.mem_cons.mp hk with rfl | hk'
                · simp [lexLtB_irrefl]
                · obtain ⟨x, hx, hxk⟩ := hprov k hk'
                  have hx2 := hgt x hx
                  rw [hxk] at hx2
                  simp [lexLtB_asymm hx2]
              rw [hcount1, hcount2, List.length_map, hinv]
              omega
            · exact hB b o hrest'2
        · intro b hb hbent
          have hbne : b ≠ bytes := by
            intro hcontra
            subst hcontra
            have htids0_empty : postings.getD oldId [] = [] :=
              hb (b, oldId) (List.mem_cons_self _ _) rfl
            have hrun_empty : ∀ e ∈ rest.takeWhile (fun e => decide (e.1 = b)),
                postings.getD e.2 [] = [] := by
              intro e he
              exact hb e (List.mem_cons_of_mem _ ((List.takeWhile_sublist _).subset he))
                (hrunkey e he)
            have hr22 : r.2.2 = [] := hrun.2.2.2.2.mpr ⟨htids0_empty, hrun_empty⟩
            have : tids2 = [] := by
              rw [htids2def, hr22]
              simp
            exact hskip this
          have hbent' : b ∉ (entries ++ [(bytes, tids2)]).map Prod.fst := by
            rw [List.map_append]
            intro hmem
            rcases List.mem_append.mp hmem with hm | hm
            · exact hbent hm
            · rw [show (([(bytes, tids2)]).map Prod.fst) = [bytes] from rfl] at hm
              exact hbne (List.mem_singleton.mp hm)
          refine hC b ?_ hbent'
          intro e he hke
          exact hb e (List.mem_cons_of_mem _ (hrest'_sub.subset he)) hke

/-- `write_dictionary_and_generate_mapping` (write_dict.rs lines 13-71),
without the I/O: takes the `(bytes, old_id)` pairs of the term map and the
per-old-id template-id lists, and returns the inserted dictionary entries
in insertion order together with the `old_to_new` map (a vector of
`term_map.len() + 1` slots initialized to 0). -/
def write_dictionary_and_generate_mapping (terms : List (List Nat × Nat))
    (postings : List (List Nat)) : List (List Nat × List Nat) × List Nat :=
  let sorted := terms.insertionSort dictLe
  dictLoopF postings (sorted.length + 1) sorted 0 (List.replicate (terms.length + 1) 0) []

/-- On a strictly sorted key list, `countP (· < b)` is the index of the
first key not below `b`: everything before it is below `b`, and the key at
that index (when it exists) is not. -/
theorem sorted_countP_lt (b : List Nat) :
    ∀ (keys : List (List Nat)),
      List.Pairwise (fun x y => lexLtB x y = true) keys →
      (∀ j k, j < keys.countP (fun k2 => lexLtB k2 b) → keys.get? j = some k →
          lexLtB k b = true) ∧
      keys.countP (fun k2 => lexLtB k2 b) ≤ keys.length ∧
      (∀ k, keys.get? (keys.countP (fun k2 => lexLtB k2 b)) = some k →
          lexLtB k b = false) := by
  intro keys
  induction keys with
  | nil =>
    intro _
    refine ⟨?_, by simp, ?_⟩
    · intro j k _ hk
      simp at hk
    · intro k hk
      simp at hk
  | cons x xs ih =>
    intro hpw
    obtain ⟨hx_all, hxs⟩ := List.pairwise_cons.mp hpw
    have ihs := ih hxs
    by_cases hxb : lexLtB x b = true
    · have hcount : (x :: xs).countP (fun k2 => lexLtB k2 b) =
          xs.countP (fun k2 => lexLtB k2 b) + 1 :=
        List.countP_cons_of_pos _ _ (by simpa using hxb)
      refine ⟨?_, ?_, ?_⟩
      · intro j k hjlt hk
        cases j with
        | zero =>
          simp only [List.get?_cons_zero, Option.some.injEq] at hk
          exact hk ▸ hxb
        | succ j' =>
          rw [List.get?_cons_succ] at hk
          rw [hcount] at hjlt
          exact ihs.1 j' k (by omega) hk
      · rw [hcount]
        simp only [List.length_cons]
        omega
      · intro k hk
        rw [hcount, List.get?_cons_succ] at hk
        exact ihs.2.2 k hk
    · have hxb' : lexLtB x b = false := by
        cases h : lexLtB x b with
        | false => rfl
        | true => exact absurd h hxb
      have hxs_not : ∀ y ∈ xs, lexLtB y b = false := by
        intro y hy
        have hxy := hx_all y hy
        rcases lexLtB_trichotomy b x with hbx | hbx | hbx
        · exact lexLtB_asymm (lexLtB_trans b x y hbx hxy)
        · subst hbx
          exact lexLtB_asymm hxy
        · rw [hbx] at hxb'
          exact absurd hxb' (by simp)
      have hcount : (x :: xs).countP (fun k2 => lexLtB k2 b) = 0 := by
        rw [List.countP_cons]
        have h0 : List.countP (fun k2 => lexLtB k2 b) xs = 0 :=
          List.countP_eq_zero.mpr (fun y hy => by simp [hxs_not y hy])
        simp [h0, hxb']
      refine ⟨?_, ?_, ?_⟩
      · intro j k hjlt hk
        rw [hcount] at hjlt
        omega
      · rw [hcount]
        simp
      · intro k hk
        rw [hcount, List.get?_cons_zero] at hk
        simp only [Option.some.injEq] at hk
        exact hk ▸ hxb'

/-- C7: the term keys inserted into the written dictionary are strictly
lexicographically increasing (duplicate byte strings collapse into one
entry), and all old ids carrying the same bytes receive the same new id. -/
theorem c7_dictionary_keys_strictly_increasing (terms : List (List Nat × Nat))
    (postings : List (List Nat))
    (hids : (terms.map Prod.snd).Nodup)
    (hbound : ∀ e ∈ terms, e.2 < terms.length + 1) :
    List.Pairwise (fun a b => lexLtB a b = true)
        (((write_dictionary_and_generate_mapping terms postings).1).map Prod.fst) ∧
      ∀ e1 ∈ terms, ∀ e2 ∈ terms, e1.1 = e2.1 →
        ((write_dictionary_and_generate_mapping terms postings).2).getD e1.2 0 =
          ((write_dictionary_and_generate_mapping terms postings).2).getD e2.2 0 := by
  have hsorted := List.sorted_insertionSort dictLe terms
  have hperm := List.perm_insertionSort dictLe terms
  have hspec := dictLoopF_spec postings ((terms.insertionSort dictLe).length + 1)
    (terms.insertionSort dictLe) 0 (List.replicate (terms.length + 1) 0) []
    (by omega) hsorted ((hperm.map Prod.snd).nodup_iff.mpr hids)
    (fun e he => by
      rw [List.length_replicate]
      exact hbound e (hperm.subset he))
    rfl (by simp) (by simp)
  refine ⟨hspec.2.1, ?_⟩
  intro e1 h1 e2 h2 heq
  obtain ⟨b1, o1⟩ := e1
  obtain ⟨b2, o2⟩ := e2
  simp only [] at heq
  have hv1 := hspec.2.2.2.2.1 b1 o1 (hperm.mem_iff.mpr h1)
  have hv2 := hspec.2.2.2.2.1 b2 o2 (hperm.mem_iff.mpr h2)
  show (dictLoopF postings ((terms.insertionSort dictLe).length + 1)
      (terms.insertionSort dictLe) 0 (List.replicate (terms.length + 1) 0) []).2.getD o1 0 =
    (dictLoopF postings ((terms.insertionSort dictLe).length + 1)
      (terms.insertionSort dictLe) 0 (List.replicate (terms.length + 1) 0) []).2.getD o2 0
  rw [hv1, hv2, heq]

theorem c7_dictionary_keys_strictly_increasing_witness :
    ((write_dictionary_and_generate_mapping [([97], 0), ([97], 1)] [[5], []]).2).getD 0 0 =
      ((write_dictionary_and_generate_mapping [([97], 0), ([97], 1)] [[5], []]).2).getD 1 0 :=
  (c7_dictionary_keys_strictly_increasing [([97], 0), ([97], 1)] [[5], []]
      (by decide) (by decide)).2 ([97], 0) (by decide) ([97], 1) (by decide) rfl

/-- C9: an old id whose term has only empty posting lists (a constant-only
term) is never inserted into the dictionary, and `old_to_new` maps it to
the new id of the next lexicographically greater inserted term — the
number of inserted entries whose key precedes its bytes — or to the total
number of inserted entries when no greater term follows; never to an
entry holding the term's own bytes. -/
theorem c9_constant_only_term_skipped (terms : List (List Nat × Nat))
    (postings : List (List Nat))
    (hids : (terms.map Prod.snd).Nodup)
    (hbound : ∀ e ∈ terms, e.2 < terms.length + 1)
    (b : List Nat) (o : Nat) (hmem : (b, o) ∈ terms)
    (hempty : ∀ e ∈ terms, e.1 = b → postings.getD e.2 [] = []) :
    b ∉ ((write_dictionary_and_generate_mapping terms postings).1).map Prod.fst ∧
    (∀ j k, j < ((write_dictionary_and_generate_mapping terms postings).2).getD o 0 →
        ((write_dictionary_and_generate_mapping terms postings).1).get? j = some k →
        lexLtB k.1 b = true) ∧
    ((write_dictionary_and_generate_mapping terms postings).2).getD o 0 ≤
      ((write_dictionary_and_generate_mapping terms postings).1).length ∧
    (∀ k, ((write_dictionary_and_generate_mapping terms postings).1).get?
          (((write_dictionary_and_generate_mapping terms postings).2).getD o 0) = some k →
        lexLtB b k.1 = true) := by
  have hsorted := List.sorted_insertionSort dictLe terms
  have hperm := List.perm_insertionSort dictLe terms
  have hspec := dictLoopF_spec postings ((terms.insertionSort dictLe).length + 1)
    (terms.insertionSort dictLe) 0 (List.replicate (terms.length + 1) 0) []
    (by omega) hsorted ((hperm.map Prod.snd).nodup_iff.mpr hids)
    (fun e he => by
      rw [List.length_replicate]
      exact hbound e (hperm.subset he))
    rfl (by simp) (by simp)
  have hnotin : b ∉ (dictLoopF postings ((terms.insertionSort dictLe).length + 1)
      (terms.insertionSort dictLe) 0 (List.replicate (terms.length + 1) 0) []).1.map
        Prod.fst :=
    hspec.2.2.2.2.2 b (fun e he hke => hempty e (hperm.subset he) hke) (by simp)
  have hval := hspec.2.2.2.2.1 b o (hperm.mem_iff.mpr hmem)
  have hcnt := sorted_countP_lt b
    ((dictLoopF postings ((terms.insertionSort dictLe).length + 1)
      (terms.insertionSort dictLe) 0 (List.replicate (terms.length + 1) 0) []).1.map
        Prod.fst) hspec.2.1
  refine ⟨hnotin, ?_, ?_, ?_⟩
  · intro j k hjlt hk
    have hkmap : ((dictLoopF postings ((terms.insertionSort dictLe).length + 1)
        (terms.insertionSort dictLe) 0 (List.replicate (terms.length + 1) 0) []).1.map
          Prod.fst).get? j = some k.1 := by
      rw [List.get?_map]
      show ((dictLoopF postings ((terms.insertionSort dictLe).length + 1)
        (terms.insertionSort dictLe) 0 (List.replicate (terms.length + 1) 0) []).1.get?
          j).map Prod.fst = some k.1
      rw [show ((write_dictionary_and_generate_mapping terms postings).1).get? j =
        (dictLoopF postings ((terms.insertionSort dictLe).length + 1)
          (terms.insertionSort dictLe) 0 (List.replicate (terms.length + 1) 0)
          []).1.get? j from rfl] at hk
      rw [hk]
      rfl
    refine hcnt.1 j k.1 ?_ hkmap
    rw [← hval]
    exact hjlt
  · have h2 := hcnt.2.1
    rw [← hval, List.length_map] at h2
    exact h2
  · intro k hk
    have hkmap : ((dictLoopF postings ((terms.insertionSort dictLe).length + 1)
        (terms.insertionSort dictLe) 0 (List.replicate (terms.length + 1) 0) []).1.map
          Prod.fst).get? ((write_dictionary_and_generate_mapping terms postings).2.getD
            o 0) = some k.1 := by
      rw [List.get?_map]
      rw [show ((write_dictionary_and_generate_mapping terms postings).1).get?
        ((write_dictionary_and_generate_mapping terms postings).2.getD o 0) =
        (dictLoopF postings ((terms.insertionSort dictLe).length + 1)
          (terms.insertionSort dictLe) 0 (List.replicate (terms.length + 1) 0)
          []).1.get? ((write_dictionary_and_generate_mapping terms postings).2.getD o 0)
        from rfl] at hk
      rw [hk]
      rfl
    have hknotlt : lexLtB k.1 b = false := by
      refine hcnt.2.2 k.1 ?_
      rw [← hval]
      exact hkmap
    have hkmem : k.1 ∈ (dictLoopF postings ((terms.insertionSort dictLe).length + 1)
        (terms.insertionSort dictLe) 0 (List.replicate (terms.length + 1) 0) []).1.map
          Prod.fst :=
      List.get?_mem hkmap
    have hkne : k.1 ≠ b := fun hcontra => hnotin (hcontra ▸ hkmem)
    rcases lexLtB_trichotomy b k.1 with h | h | h
    · exact h
    · exact absurd h.symm hkne
    · rw [hknotlt] at h
      exact absurd h (by simp)

theorem c9_constant_only_term_skipped_witness :
    [97] ∉ ((write_dictionary_and_generate_mapping [([97], 0), ([98], 1)]
        [[], [7]]).1).map Prod.fst :=
  (c9_constant_only_term_skipped [([97], 0), ([98], 1)] [[], [7]]
      (by decide) (by decide) [97] 0 (by decide) (by decide)).1

/-! ### Search-side column reads and template matching (C10)

Embeds `Columns::get_doc_ids` / `get_term_ids` (src/columns/read.rs lines
60-80), the read-side `TemplateToken` / `Template::check_match`
(src/templates.rs lines 82-137), and `Searcher::search_in_zstd_column` /
the per-template body of `get_doc_from_templates` (src/search.rs lines
89-179).  A decompressed column set is a `List (List Nat)` of term ids; a
query is its byte list. -/

/-- `MatchResult` (templates.rs lines 12-17).  search.rs pattern-matches the
full case as `FullMatch`, a naming drift in this draft; the variant is
modelled once as `Full`. -/
inductive MatchResult where
  | Full : MatchResult
  | NoMatch : MatchResult
  | VariableMayMatch : MatchResult
deriving DecidableEq

/-- Read-side `TemplateToken` (templates.rs lines 111-116). -/
inductive TemplateToken where
  | Constant (bytes : List Nat) : TemplateToken
  | Variable : TemplateToken
  | Whitespace (n : Nat) : TemplateToken
deriving DecidableEq

/-- `TemplateToken::check_match` (templates.rs lines 118-136). -/
def TemplateToken.check_match (t : TemplateToken) (term : List Nat) : MatchResult :=
  match t with
  | .Constant c => if term = c then .Full else .NoMatch
  | .Variable => .VariableMayMatch
  | .Whitespace _ => if term = [] then .Full else .NoMatch

/-- The loop of `Template::check_match` (templates.rs lines 82-93): an early
return on the first `Full`, otherwise `VariableMayMatch` is sticky in the
accumulator. -/
def checkMatchLoop (term : List Nat) : List TemplateToken → MatchResult → MatchResult
  | [], acc => acc
  | t :: ts, acc =>
    match t.check_match term with
    | .Full => .Full
    | .VariableMayMatch => checkMatchLoop term ts .VariableMayMatch
    | .NoMatch => checkMatchLoop term ts acc

/-- `Template::check_match` (templates.rs lines 82-93) over the template's
parts. -/
def check_match (parts : List TemplateToken) (term : List Nat) : MatchResult :=
  checkMatchLoop term parts .NoMatch

/-- The inner `column.iter().enumerate().filter_map(..)` of
`Columns::get_doc_ids` (read.rs lines 66-80): the row indices of one column
whose term satisfies the predicate. -/
def getDocIdsCol (matchFn : Nat → Bool) (column : List Nat) : List Nat :=
  column.enum.filterMap fun p => if matchFn p.2 then some p.1 else none

/-- `Columns::get_doc_ids` (read.rs lines 66-80): flat-maps the per-column row
indices over ALL columns, so a document id is emitted once per column in which
its term matches. -/
def get_doc_ids (cols : List (List Nat)) (matchFn : Nat → Bool) : List Nat :=
  cols.flatMap (getDocIdsCol matchFn)

/-- `Columns::get_term_ids` (read.rs lines 60-64): the term id at the given
row of each column that is long enough (`term_at` is `data.get(index)`). -/
def get_term_ids (cols : List (List Nat)) (doc : Nat) : List Nat :=
  cols.filterMap fun column => column[doc]?

/-- The hit-collection loop of `Searcher::search_in_zstd_column` (search.rs
lines 161-169): push each document id and break once the hit list's length has
reached the bound, when one is given. -/
def collectHits : Option Nat → List Nat → List Nat
  | none, l => l
  | some _, [] => []
  | some m, x :: xs => if m ≤ 1 then [x] else x :: collectHits (some (m - 1)) xs

/-- `Searcher::search_in_zstd_column` (search.rs lines 150-179), after the
zstd column file has been decompressed to `cols`: collect matching document
ids up to `maxHits`, then return each hit document's term ids. -/
def search_in_zstd_column (cols : List (List Nat)) (matchFn : Nat → Bool)
    (maxHits : Option Nat) : List (List Nat) :=
  (collectHits maxHits (get_doc_ids cols matchFn)).map (get_term_ids cols)

/-- The per-template body of `Searcher::get_doc_from_templates` (search.rs
lines 95-116): a `Full` match scans the columns with the always-true predicate
and `max_hits = Some(10)`; `VariableMayMatch` scans with a term-id equality
predicate when the dictionary lookup found this template (`dictHit`);
otherwise the template contributes nothing. -/
def get_doc_from_template (cols : List (List Nat)) (matchResult : MatchResult)
    (dictHit : Option Nat) : List (List Nat) :=
  match matchResult with
  | .Full => search_in_zstd_column cols (fun _ => true) (some 10)
  | .VariableMayMatch =>
    match dictHit with
    | some termId => search_in_zstd_column cols (fun hit => termId = hit) (some 10)
    | none => []
  | .NoMatch => []

theorem getDocIdsCol_true (column : List Nat) :
    getDocIdsCol (fun _ => true) column = List.range column.length := by
  have h : (fun (p : Nat × Nat) => if (fun _ => true) p.2 then some p.1 else none)
      = some ∘ Prod.fst := by
    funext p
    simp
  rw [getDocIdsCol, h, List.filterMap_eq_map, List.enum_map_fst]

theorem get_doc_ids_true_count (d D : Nat) (hd : d < D) :
    ∀ cols : List (List Nat), (∀ c ∈ cols, c.length = D) →
      (get_doc_ids cols (fun _ => true)).count d = cols.length := by
  intro cols
  induction cols with
  | nil => intro _; rfl
  | cons c cs ih =>
    intro hall
    have hc : c.length = D := hall c (List.mem_cons_self c cs)
    have hcs : ∀ x ∈ cs, x.length = D := fun x hx => hall x (List.mem_cons_of_mem c hx)
    have hsplit : get_doc_ids (c :: cs) (fun _ => true)
        = getDocIdsCol (fun _ => true) c ++ get_doc_ids cs (fun _ => true) := by
      rw [get_doc_ids, get_doc_ids, List.flatMap_cons]
    rw [hsplit, List.count_append, ih hcs, getDocIdsCol_true, hc]
    have h1 : (List.range D).count d = 1 :=
      List.count_eq_one_of_mem (List.nodup_range D) (List.mem_range.mpr hd)
    rw [h1]
    simp [Nat.add_comm]

theorem collectHits_eq_take :
    ∀ (l : List Nat) (m : Nat), 1 ≤ m → collectHits (some m) l = l.take m := by
  intro l
  induction l with
  | nil =>
    intro m _
    simp [collectHits]
  | cons x xs ih =>
    intro m hm
    obtain ⟨k, rfl⟩ : ∃ k, m = k + 1 := ⟨m - 1, by omega⟩
    rcases Nat.eq_zero_or_pos k with hk | hk
    · subst hk
      simp [collectHits]
    · rw [show collectHits (some (k + 1)) (x :: xs)
          = if k + 1 ≤ 1 then [x] else x :: collectHits (some (k + 1 - 1)) xs from rfl]
      rw [if_neg (by omega)]
      simp only [Nat.add_sub_cancel]
      rw [ih k hk, List.take_succ_cons]

/-- C10: when a template's `check_match` against the query is `Full` (for
instance because a constant slot equals the query bytes),
`get_doc_from_templates` scans the template's columns with the always-true
predicate and `max_hits = 10`.  With at least two variable columns all holding
the same `D ≥ 1` rows and `D` below the hit limit `10`, `get_doc_ids` yields
every document id once per column, and the search result repeats a document:
positions `0` and `D` of the result hold the same document's term ids. -/
theorem c10_full_match_duplicates_documents
    (parts : List TemplateToken) (q : List Nat) (dictHit : Option Nat)
    (cols : List (List Nat)) (D : Nat)
    (hfull : check_match parts q = MatchResult.Full)
    (hncols : 2 ≤ cols.length)
    (hD1 : 1 ≤ D) (hD10 : D < 10)
    (hlens : ∀ c ∈ cols, c.length = D) :
    get_doc_from_template cols (check_match parts q) dictHit
        = search_in_zstd_column cols (fun _ => true) (some 10) ∧
    (∀ d < D, (get_doc_ids cols (fun _ => true)).count d = cols.length) ∧
    (search_in_zstd_column cols (fun _ => true) (some 10))[0]?
        = some (get_term_ids cols 0) ∧
    (search_in_zstd_column cols (fun _ => true) (some 10))[D]?
        = some (get_term_ids cols 0) ∧
    0 ≠ D := by
  rcases cols with _ | ⟨c1, cols1⟩
  · simp at hncols
  rcases cols1 with _ | ⟨c2, rest⟩
  · simp at hncols
  have hc1 : c1.length = D := hlens c1 (by simp)
  have hc2 : c2.length = D := hlens c2 (by simp)
  have hL : get_doc_ids (c1 :: c2 :: rest) (fun _ => true)
      = List.range D ++ (List.range D ++ get_doc_ids rest (fun _ => true)) := by
    rw [get_doc_ids, List.flatMap_cons, List.flatMap_cons, getDocIdsCol_true,
      getDocIdsCol_true, hc1, hc2, get_doc_ids]
  have h0 : (get_doc_ids (c1 :: c2 :: rest) (fun _ => true))[0]? = some 0 := by
    rw [hL, List.getElem?_append_left (by simp; omega)]
    simp [List.getElem?_range (show 0 < D by omega)]
  have hDidx : (get_doc_ids (c1 :: c2 :: rest) (fun _ => true))[D]? = some 0 := by
    rw [hL, List.getElem?_append_right (by simp)]
    simp only [List.length_range, Nat.sub_self]
    rw [List.getElem?_append_left (by simp; omega)]
    simp [List.getElem?_range (show 0 < D by omega)]
  have hs : search_in_zstd_column (c1 :: c2 :: rest) (fun _ => true) (some 10)
      = ((get_doc_ids (c1 :: c2 :: rest) (fun _ => true)).take 10).map
          (get_term_ids (c1 :: c2 :: rest)) := by
    rw [search_in_zstd_column, collectHits_eq_take _ 10 (by omega)]
  refine ⟨by rw [hfull]; rfl, fun d hd => get_doc_ids_true_count d D hd _ hlens, ?_, ?_,
    by omega⟩
  · rw [hs, List.getElem?_map, List.getElem?_take_of_lt (by omega), h0]
    rfl
  · rw [hs, List.getElem?_map, List.getElem?_take_of_lt hD10, hDidx]
    rfl

theorem c10_full_match_duplicates_documents_witness :
    get_doc_from_template [[5, 6], [7, 8]]
        (check_match [TemplateToken.Constant [97], TemplateToken.Variable,
          TemplateToken.Variable] [97]) none
      = search_in_zstd_column [[5, 6], [7, 8]] (fun _ => true) (some 10) ∧
    (∀ d < 2, (get_doc_ids [[5, 6], [7, 8]] (fun _ => true)).count d
        = ([[5, 6], [7, 8]] : List (List Nat)).length) ∧
    (search_in_zstd_column [[5, 6], [7, 8]] (fun _ => true) (some 10))[0]?
        = some (get_term_ids [[5, 6], [7, 8]] 0) ∧
    (search_in_zstd_column [[5, 6], [7, 8]] (fun _ => true) (some 10))[2]?
        = some (get_term_ids [[5, 6], [7, 8]] 0) ∧
    0 ≠ 2 :=
  c10_full_match_duplicates_documents
    [TemplateToken.Constant [97], TemplateToken.Variable, TemplateToken.Variable]
    [97] none [[5, 6], [7, 8]] 2 (by decide) (by decide) (by decide) (by decide)
    (by decide)

theorem c6_split_preserves_rows_witness :
    ((move_term_id_to_new_group
        (PrelimDocGroup.mk [⟨IndexingTemplateToken.variableTok false 0 TokType.word, 0⟩]
          [[1, 2, 1]] 3) 1 0 IndexingTermmap.empty).1).numDocs +
      ((move_term_id_to_new_group
        (PrelimDocGroup.mk [⟨IndexingTemplateToken.variableTok false 0 TokType.word, 0⟩]
          [[1, 2, 1]] 3) 1 0 IndexingTermmap.empty).2.1).numDocs = 3 ∧
    (move_term_id_to_new_group
        (PrelimDocGroup.mk [⟨IndexingTemplateToken.variableTok false 0 TokType.word, 0⟩]
          [[1, 2, 1]] 3) 1 0 IndexingTermmap.empty).2.2 = IndexingTermmap.empty :=
  c6_split_preserves_rows
    (PrelimDocGroup.mk [⟨IndexingTemplateToken.variableTok false 0 TokType.word, 0⟩]
      [[1, 2, 1]] 3) 1 0 IndexingTermmap.empty (by decide)

end Moshiki
